import Mathlib

/-!
# Arena allocator of `cpu.c`: shallow embedding and verification

The allocator of `src/cpu.c` keeps three globals: the pool pointer and two
arrays of `block_info` descriptors with their element counts.  The embedding
keeps the live part of each array, `free_blocks[0..free_count)` and
`allocated_blocks[0..allocated_count)`, as a list, so `free_count` and
`allocated_count` are the list lengths.  Pointers and `size_t` values are
natural numbers; every `size_t` addition that the code performs is reduced
modulo `2 ^ 64`.  `PAGESIZE` and `MINALLOC` come from `alloc.h`, which is not
part of the sources, so they are parameters `P` and `G` of the model.  The
results of the operating-system calls `mmap` and `munmap` are parameters of
`init_alloc` and `cleanup`.

Both arrays have `MAX_BLOCKS` entries, and the code stores at index
`allocated_count` (in `alloc`) and at index `free_count` (in
`insert_free_block`) without a check.  A list of the model is the live part of
its array as long as these stores stay below `MAX_BLOCKS`; a store at index
`MAX_BLOCKS` is outside the array and is not described by the model.  Theorem
`writes_in_bounds` shows that with `P / G <= MAX_BLOCKS` every store of every
sequence of calls after a successful `init_alloc` is inside the arrays.  The
theorems about reachable states therefore assume `P / G <= MAX_BLOCKS` or a
configuration that implies it, and the theorems about one call that stores, in
an arbitrary state, assume that the count at which it stores is below
`MAX_BLOCKS`.
-/

namespace Arena

/-! ## Data model -/

/-- The descriptor `block_info` of cpu.c: an offset from the start of the page
and a size, both `size_t`. -/
structure block_info where
  offset : Nat
  size : Nat
deriving DecidableEq, Repr

/-- The constant `MAX_BLOCKS` of cpu.c: the length of both descriptor arrays. -/
def MAX_BLOCKS : Nat := 512

/-- The modulus of `size_t` and of pointer arithmetic. -/
def WORD : Nat := 2 ^ 64

/-- The value `MAP_FAILED`, that is `(void *) -1`. -/
def MAP_FAILED : Nat := WORD - 1

/-- The globals of cpu.c.  `pool` is the pool pointer (`0` is `NULL`);
`free_blocks` is `free_blocks[0..free_count)` and `allocated_blocks` is
`allocated_blocks[0..allocated_count)`.  The arrays hold `MAX_BLOCKS` entries:
a state stands for globals of the program only when both lists have at most
`MAX_BLOCKS` entries, and a call is described by the model only when the index
it stores at is below `MAX_BLOCKS`. -/
structure State where
  pool : Nat
  free_blocks : List block_info
  allocated_blocks : List block_info
deriving DecidableEq, Repr

/-- The global `free_count`. -/
def State.free_count (s : State) : Nat := s.free_blocks.length

/-- The global `allocated_count`. -/
def State.allocated_count (s : State) : Nat := s.allocated_blocks.length

/-! ## `insert_free_block` -/

/-- The inner `while` loop of the insertion sort (cpu.c lines 32-38).  The
argument is the already sorted part `free_blocks[0..i)` read downwards, from
index `i - 1` to index `0`, which is the order in which the loop visits it:
every entry whose offset is greater than the key's moves one place up, and the
key is stored where the loop stops.  The result is `free_blocks[0..i]`, again
read downwards. -/
def sort_inner (key : block_info) : List block_info → List block_info
  | [] => [key]
  | b :: below =>
    if b.offset > key.offset then b :: sort_inner key below
    else key :: b :: below

/-- The outer `for` loop of the insertion sort (cpu.c lines 31-39): `sorted` is
`free_blocks[0..i)` read downwards, the second argument is
`free_blocks[i..free_count)`. -/
def sort_outer (sorted : List block_info) : List block_info → List block_info
  | [] => sorted.reverse
  | key :: rest => sort_outer (sort_inner key sorted) rest

/-- The insertion sort of cpu.c lines 31-39; the loop starts at index 1. -/
def insertion_sort : List block_info → List block_info
  | [] => []
  | first :: rest => sort_outer [first] rest

/-- The merge loop of cpu.c lines 42-54, from index `i` on: `cur` is
`free_blocks[i]` and the list is `free_blocks[i+1..free_count)`.  When the end
of `cur` is the offset of the next entry, the next entry is added to `cur` and
removed, and the test is repeated at the same index; otherwise `i` advances. -/
def merge_from (cur : block_info) : List block_info → List block_info
  | [] => [cur]
  | next :: rest =>
    if (cur.offset + cur.size) % WORD = next.offset then
      merge_from { offset := cur.offset, size := (cur.size + next.size) % WORD } rest
    else cur :: merge_from next rest

/-- The merge loop of cpu.c lines 42-54, started at index 0. -/
def merge_loop : List block_info → List block_info
  | [] => []
  | first :: rest => merge_from first rest

/-- The helper `insert_free_block` of cpu.c, on the free list: store the new
descriptor at index `free_count`, sort by offset, merge contiguous entries. -/
def insert_free_block (offset size : Nat) (free : List block_info) : List block_info :=
  merge_loop (insertion_sort (free ++ [{ offset := offset, size := size }]))

/-! ## `init_alloc` and `cleanup` -/

/-- The function `init_alloc` of cpu.c.  `mmap_result` is the pointer returned
by `mmap`; it is stored in `pool` before the comparison with `MAP_FAILED`. -/
def init_alloc (P : Nat) (mmap_result : Nat) (s : State) : Int × State :=
  if mmap_result = MAP_FAILED then (-1, { s with pool := mmap_result })
  else (0, { pool := mmap_result,
             free_blocks := [{ offset := 0, size := P }],
             allocated_blocks := [] })

/-- The function `cleanup` of cpu.c.  `munmap_result` is the value returned by
`munmap`. -/
def cleanup (munmap_result : Int) (s : State) : Int × State :=
  if munmap_result ≠ 0 then (-1, s)
  else (0, { pool := 0, free_blocks := [], allocated_blocks := [] })

/-! ## `alloc` -/

/-- The search loop of `alloc` (cpu.c lines 94-117) for a request of `size`
bytes.  At the first entry whose size is at least `size` it yields the
descriptor recorded in the allocated list and the updated free list: the entry
is removed on an exact fit and otherwise its offset advances by `size` and its
size shrinks by `size`.  It yields `none` when the loop ends without a fit. -/
def alloc_scan (size : Nat) : List block_info → Option (block_info × List block_info)
  | [] => none
  | b :: rest =>
    if b.size ≥ size then
      some ({ offset := b.offset, size := size },
            if b.size = size then rest
            else { offset := (b.offset + size) % WORD, size := b.size - size } :: rest)
    else
      match alloc_scan size rest with
      | none => none
      | some (a, free) => some (a, b :: free)

/-- The function `alloc` of cpu.c.  The first component is the returned
pointer, `0` for `NULL`; `G` is `MINALLOC`. -/
def alloc (G : Nat) (size : Int) (s : State) : Nat × State :=
  if size ≤ 0 ∨ size.tmod (G : Int) ≠ 0 then (0, s)
  else
    match alloc_scan size.toNat s.free_blocks with
    | none => (0, s)
    | some (a, free) =>
      ((s.pool + a.offset) % WORD,
       { s with free_blocks := free, allocated_blocks := s.allocated_blocks ++ [a] })

/-! ## `dealloc` -/

/-- The lookup and removal loops of `dealloc` (cpu.c lines 133-149): the size
of the first allocated descriptor with the given offset, and the allocated list
without that descriptor; `none` when no descriptor has the offset. -/
def remove_allocated (offset : Nat) : List block_info → Option (Nat × List block_info)
  | [] => none
  | b :: rest =>
    if b.offset = offset then some (b.size, rest)
    else
      match remove_allocated offset rest with
      | none => none
      | some (block_size, al) => some (block_size, b :: al)

/-- The function `dealloc` of cpu.c; `ptr - pool` is computed in `size_t`. -/
def dealloc (ptr : Nat) (s : State) : State :=
  if ptr = 0 ∨ s.pool = 0 then s
  else
    match remove_allocated ((ptr + WORD - s.pool) % WORD) s.allocated_blocks with
    | none => s
    | some (block_size, al) =>
      { s with
        free_blocks := insert_free_block ((ptr + WORD - s.pool) % WORD) block_size s.free_blocks,
        allocated_blocks := al }

/-! ## Specification vocabulary -/

/-- Byte `x` of the page lies in the range `[offset, offset + size)` of `b`. -/
def covers (b : block_info) (x : Nat) : Prop := b.offset ≤ x ∧ x < b.offset + b.size

instance (b : block_info) (x : Nat) : Decidable (covers b x) := by
  unfold covers; infer_instance

/-- The number of descriptors of a list whose range contains byte `x`. -/
def cover_count (x : Nat) : List block_info → Nat
  | [] => 0
  | b :: rest => (if covers b x then 1 else 0) + cover_count x rest

/-- The ranges of two descriptors have no byte in common. -/
def disjoint_ranges (a b : block_info) : Prop := ∀ x, ¬ (covers a x ∧ covers b x)

/-- Descriptor `a` ends strictly below the offset of `b`: the two ranges
neither overlap nor touch. -/
def gap (a b : block_info) : Prop := a.offset + a.size < b.offset

/-- Descriptor `a` ends at or below the offset of `b`. -/
def touch (a b : block_info) : Prop := a.offset + a.size ≤ b.offset

/-- The assumptions on the configuration: the granularity is positive and
divides the positive page size, and `m`, the pointer returned by `mmap`, is the
start of `P` bytes of address space: not null, not `MAP_FAILED`, and the page
ends inside the address space. -/
def ValidConfig (P G m : Nat) : Prop :=
  0 < G ∧ G ∣ P ∧ 0 < P ∧ 0 < m ∧ m ≠ MAP_FAILED ∧ m + P ≤ WORD

instance (P G m : Nat) : Decidable (ValidConfig P G m) := by
  unfold ValidConfig; infer_instance

/-- The states reachable from a successful `init_alloc` whose `mmap` returned
`m`, by any finite sequence of `alloc` and `dealloc` calls with any
arguments. -/
inductive Reachable (P G m : Nat) : State → Prop
  | init (s0 : State) : Reachable P G m (init_alloc P m s0).2
  | alloc (s : State) (size : Int) : Reachable P G m s → Reachable P G m (alloc G size s).2
  | dealloc (s : State) (ptr : Nat) : Reachable P G m s → Reachable P G m (dealloc ptr s)

/-- The invariant behind the reachable-state claims: the pool pointer is the
mapped page, every descriptor has a positive size, every byte below `P` lies in
exactly one descriptor of the two lists and no other byte lies in any, and the
free list is ascending with a gap between any two entries. -/
def Inv (P m : Nat) (s : State) : Prop :=
  s.pool = m ∧
  (∀ b ∈ s.free_blocks, 0 < b.size) ∧
  (∀ b ∈ s.allocated_blocks, 0 < b.size) ∧
  (∀ x, cover_count x s.free_blocks + cover_count x s.allocated_blocks = if x < P then 1 else 0) ∧
  s.free_blocks.Pairwise gap

/-- Deallocation of a list of handles, one after the other. -/
def dealloc_all (handles : List Nat) (s : State) : State :=
  handles.foldl (fun st h => dealloc h st) s

/-- The sum of the sizes of the descriptors of a list. -/
def size_sum : List block_info → Nat
  | [] => 0
  | b :: rest => b.size + size_sum rest

/-- Every offset and every size of the list is a multiple of `G`. -/
def aligned (G : Nat) (l : List block_info) : Prop :=
  ∀ b ∈ l, G ∣ b.offset ∧ G ∣ b.size

/-- The second invariant of the reachable states: all offsets and sizes of both
lists are multiples of the granularity, and the sizes of both lists add up to
the page size. -/
def InvAligned (P G : Nat) (s : State) : Prop :=
  aligned G s.free_blocks ∧ aligned G s.allocated_blocks ∧
  size_sum s.free_blocks + size_sum s.allocated_blocks = P

/-! ## Example states -/

/-- The state after a successful `init_alloc` of a page of 4096 bytes mapped at
address 65536. -/
def example_init : State := (init_alloc 4096 65536 ⟨0, [], []⟩).2

/-- The state after `alloc(128)` on `example_init`. -/
def example_one : State := (alloc 64 128 example_init).2

/-- A fragmented state: blocks of 128, 64, 64 and 64 bytes are allocated at
offsets 0, 128, 192 and 256, then the blocks at offsets 0 and 192 are
deallocated. -/
def example_frag : State :=
  dealloc (65536 + 192) (dealloc 65536
    (alloc 64 64 (alloc 64 64 (alloc 64 64 (alloc 64 128 example_init).2).2).2).2)

/-- The state after `init_alloc` and three calls `alloc(64)`: blocks of 64 bytes
at offsets 0, 64 and 128. -/
def example_three : State :=
  (alloc 64 64 (alloc 64 64 (alloc 64 64 (init_alloc 4096 65536 ⟨0, [], []⟩).2).2).2).2

/-- The state after `alloc(128)` on `example_init` and `dealloc` of the handle
it returned. -/
def example_back : State := dealloc 65536 example_one

/-! ## Counting lemmas -/

theorem cover_count_append (x : Nat) (l₁ l₂ : List block_info) :
    cover_count x (l₁ ++ l₂) = cover_count x l₁ + cover_count x l₂ := by
  induction l₁ with
  | nil => simp [cover_count]
  | cons a t ih => simp [cover_count, ih, Nat.add_assoc]

theorem cover_count_perm (x : Nat) {l₁ l₂ : List block_info} (h : l₁.Perm l₂) :
    cover_count x l₁ = cover_count x l₂ := by
  induction h with
  | nil => rfl
  | cons a _ ih => simp [cover_count, ih]
  | swap a b l => simp only [cover_count]; omega
  | trans _ _ ih₁ ih₂ => exact ih₁.trans ih₂

theorem cover_count_pos_of_mem {x : Nat} {l : List block_info} {b : block_info}
    (hb : b ∈ l) (hx : covers b x) : 0 < cover_count x l := by
  induction l with
  | nil => cases hb
  | cons a t ih =>
    rcases List.mem_cons.1 hb with rfl | h
    · simp [cover_count, hx]
    · have := ih h
      simp only [cover_count]; omega

theorem exists_covers_of_cover_count_pos {x : Nat} {l : List block_info}
    (h : 0 < cover_count x l) : ∃ b ∈ l, covers b x := by
  induction l with
  | nil => simp [cover_count] at h
  | cons a t ih =>
    by_cases ha : covers a x
    · exact ⟨a, List.mem_cons_self _ _, ha⟩
    · simp only [cover_count, ha, if_false, Nat.zero_add] at h
      obtain ⟨b, hb, hbx⟩ := ih h
      exact ⟨b, List.mem_cons_of_mem _ hb, hbx⟩

theorem cover_count_eq_zero {x : Nat} {l : List block_info}
    (h : ∀ b ∈ l, ¬ covers b x) : cover_count x l = 0 := by
  by_contra hne
  obtain ⟨b, hb, hbx⟩ := exists_covers_of_cover_count_pos (Nat.pos_of_ne_zero hne)
  exact h b hb hbx

/-- When no byte lies in two descriptors of a list and all sizes are positive,
the ranges of the list are pairwise disjoint. -/
theorem pairwise_disjoint_of_cover_count_le_one {l : List block_info}
    (hpos : ∀ b ∈ l, 0 < b.size) (hcnt : ∀ x, cover_count x l ≤ 1) :
    l.Pairwise disjoint_ranges := by
  induction l with
  | nil => exact List.Pairwise.nil
  | cons a t ih =>
    refine List.Pairwise.cons ?_ (ih (fun b hb => hpos b (List.mem_cons_of_mem _ hb)) ?_)
    · intro b hb x hx
      have h1 := cover_count_pos_of_mem hb hx.2
      have h2 := hcnt x
      simp only [cover_count, hx.1, if_true] at h2
      omega
    · intro x
      have h2 := hcnt x
      simp only [cover_count] at h2
      omega

/-! ## The insertion sort -/

theorem sort_inner_perm (key : block_info) (l : List block_info) :
    (sort_inner key l).Perm (key :: l) := by
  induction l with
  | nil => simp [sort_inner]
  | cons b t ih =>
    by_cases h : b.offset > key.offset
    · simp only [sort_inner, h, if_true]
      exact (List.Perm.cons b ih).trans (List.Perm.swap key b t)
    · simp [sort_inner, h]

theorem sort_inner_sorted (key : block_info) {l : List block_info}
    (hl : l.Pairwise (fun a b => b.offset ≤ a.offset)) :
    (sort_inner key l).Pairwise (fun a b => b.offset ≤ a.offset) := by
  induction l with
  | nil => simp [sort_inner]
  | cons b t ih =>
    rw [List.pairwise_cons] at hl
    by_cases h : b.offset > key.offset
    · simp only [sort_inner, h, if_true]
      refine List.Pairwise.cons ?_ (ih hl.2)
      intro c hc
      rcases List.mem_cons.1 ((sort_inner_perm key t).subset hc) with rfl | hct
      · omega
      · exact hl.1 c hct
    · simp only [sort_inner, h, if_false]
      refine List.Pairwise.cons ?_ (List.Pairwise.cons hl.1 hl.2)
      intro c hc
      rcases List.mem_cons.1 hc with rfl | hct
      · omega
      · have := hl.1 c hct
        omega

theorem sort_outer_perm (sorted rest : List block_info) :
    (sort_outer sorted rest).Perm (sorted ++ rest) := by
  induction rest generalizing sorted with
  | nil => simp [sort_outer]
  | cons key t ih =>
    simp only [sort_outer]
    refine (ih _).trans ?_
    refine (List.Perm.append_right t (sort_inner_perm key sorted)).trans ?_
    exact (@List.perm_middle _ key sorted t).symm

theorem sort_outer_sorted {sorted : List block_info} (rest : List block_info)
    (hs : sorted.Pairwise (fun a b => b.offset ≤ a.offset)) :
    (sort_outer sorted rest).Pairwise (fun a b => a.offset ≤ b.offset) := by
  induction rest generalizing sorted with
  | nil => simpa [sort_outer, List.pairwise_reverse] using hs
  | cons key t ih => exact ih (sort_inner_sorted key hs)

theorem insertion_sort_perm (l : List block_info) : (insertion_sort l).Perm l := by
  cases l with
  | nil => exact List.Perm.refl _
  | cons a t => exact sort_outer_perm [a] t

theorem insertion_sort_sorted (l : List block_info) :
    (insertion_sort l).Pairwise (fun a b => a.offset ≤ b.offset) := by
  cases l with
  | nil => exact List.Pairwise.nil
  | cons a t => exact sort_outer_sorted t (List.pairwise_singleton _ _)

/-! ## The merge loop -/

theorem merge_from_spec (P : Nat) (hP : P < WORD) (rest : List block_info) :
    ∀ cur : block_info, (cur :: rest).Pairwise touch →
      (∀ b ∈ cur :: rest, 0 < b.size ∧ b.offset + b.size ≤ P) →
      (merge_from cur rest).Pairwise gap ∧
      (∀ b ∈ merge_from cur rest, 0 < b.size ∧ cur.offset ≤ b.offset ∧ b.offset + b.size ≤ P) ∧
      ∀ x, cover_count x (merge_from cur rest) = cover_count x (cur :: rest) := by
  induction rest with
  | nil =>
    intro cur _ hb
    refine ⟨List.pairwise_singleton _ _, ?_, fun x => rfl⟩
    intro b hbm
    simp only [merge_from, List.mem_singleton] at hbm
    subst hbm
    have := hb b (List.mem_cons_self _ _)
    exact ⟨this.1, Nat.le_refl _, this.2⟩
  | cons nxt t ih =>
    intro cur hpw hb
    have hcur := hb cur (List.mem_cons_self _ _)
    have hnxt := hb nxt (List.mem_cons_of_mem _ (List.mem_cons_self _ _))
    rw [List.pairwise_cons] at hpw
    obtain ⟨hcur_t, hpw_t⟩ := hpw
    have hcn : cur.offset + cur.size ≤ nxt.offset := hcur_t nxt (List.mem_cons_self _ _)
    have hmod : (cur.offset + cur.size) % WORD = cur.offset + cur.size :=
      Nat.mod_eq_of_lt (by omega)
    by_cases hadj : cur.offset + cur.size = nxt.offset
    · have hsz : (cur.size + nxt.size) % WORD = cur.size + nxt.size :=
        Nat.mod_eq_of_lt (by omega)
      have hstep : merge_from cur (nxt :: t) =
          merge_from { offset := cur.offset, size := cur.size + nxt.size } t := by
        rw [merge_from, if_pos (hmod.trans hadj), hsz]
      rw [List.pairwise_cons] at hpw_t
      have hpw2 : ({ offset := cur.offset, size := cur.size + nxt.size } :: t).Pairwise touch := by
        refine List.Pairwise.cons ?_ hpw_t.2
        intro c hc
        have := hpw_t.1 c hc
        simp only [touch] at this ⊢
        omega
      have hb2 : ∀ b ∈ ({ offset := cur.offset, size := cur.size + nxt.size } : block_info) :: t,
          0 < b.size ∧ b.offset + b.size ≤ P := by
        intro b hbm
        rcases List.mem_cons.1 hbm with rfl | hbt
        · constructor
          · show 0 < cur.size + nxt.size
            omega
          · show cur.offset + (cur.size + nxt.size) ≤ P
            omega
        · exact hb b (List.mem_cons_of_mem _ (List.mem_cons_of_mem _ hbt))
      obtain ⟨h1, h2, h3⟩ := ih _ hpw2 hb2
      rw [hstep]
      refine ⟨h1, h2, ?_⟩
      intro x
      rw [h3 x]
      simp only [cover_count, covers]
      split_ifs <;> omega
    · have hstep : merge_from cur (nxt :: t) = cur :: merge_from nxt t := by
        rw [merge_from, if_neg (by rw [hmod]; exact hadj)]
      have hb2 : ∀ b ∈ nxt :: t, 0 < b.size ∧ b.offset + b.size ≤ P :=
        fun b hbm => hb b (List.mem_cons_of_mem _ hbm)
      obtain ⟨h1, h2, h3⟩ := ih nxt hpw_t hb2
      rw [hstep]
      refine ⟨List.Pairwise.cons ?_ h1, ?_, ?_⟩
      · intro c hc
        have := (h2 c hc).2.1
        simp only [gap]
        omega
      · intro b hbm
        rcases List.mem_cons.1 hbm with rfl | hbt
        · exact ⟨hcur.1, Nat.le_refl _, hcur.2⟩
        · have := h2 b hbt
          exact ⟨this.1, by omega, this.2.2⟩
      · intro x
        simp only [cover_count, h3 x]

theorem merge_loop_spec (P : Nat) (hP : P < WORD) (l : List block_info)
    (hpw : l.Pairwise touch) (hb : ∀ b ∈ l, 0 < b.size ∧ b.offset + b.size ≤ P) :
    (merge_loop l).Pairwise gap ∧
    (∀ b ∈ merge_loop l, 0 < b.size ∧ b.offset + b.size ≤ P) ∧
    ∀ x, cover_count x (merge_loop l) = cover_count x l := by
  cases l with
  | nil => exact ⟨List.Pairwise.nil, by simp [merge_loop], fun x => rfl⟩
  | cons a t =>
    obtain ⟨h1, h2, h3⟩ := merge_from_spec P hP t a hpw hb
    exact ⟨h1, fun b hbm => ⟨(h2 b hbm).1, (h2 b hbm).2.2⟩, h3⟩

/-- A list sorted by offset whose ranges are pairwise disjoint and non-empty is
ordered end-to-start. -/
theorem pairwise_touch_of_sorted_disjoint {l : List block_info}
    (hs : l.Pairwise (fun a b => a.offset ≤ b.offset))
    (hd : l.Pairwise disjoint_ranges) (hpos : ∀ b ∈ l, 0 < b.size) :
    l.Pairwise touch := by
  induction l with
  | nil => exact List.Pairwise.nil
  | cons a t ih =>
    rw [List.pairwise_cons] at hs hd
    refine List.Pairwise.cons ?_ (ih hs.2 hd.2 (fun b hb => hpos b (List.mem_cons_of_mem _ hb)))
    intro b hb
    have h1 := hs.1 b hb
    have h2 := hd.1 b hb b.offset
    have h3 := hpos b (List.mem_cons_of_mem _ hb)
    simp only [covers, touch] at h2 ⊢
    by_contra hlt
    exact h2 ⟨⟨h1, by omega⟩, ⟨Nat.le_refl _, by omega⟩⟩

/-- Every descriptor of a list with non-empty ranges that covers no byte at or
above `P` ends at or below `P`. -/
theorem end_le_of_cover_count {P : Nat} {l : List block_info} {b : block_info}
    (hb : b ∈ l) (hpos : 0 < b.size) (hcnt : ∀ x, P ≤ x → cover_count x l = 0) :
    b.offset + b.size ≤ P := by
  by_contra hlt
  have hx : covers b (b.offset + b.size - 1) := by
    simp only [covers]; omega
  have := cover_count_pos_of_mem hb hx
  have := hcnt (b.offset + b.size - 1) (by omega)
  omega

/-- The free list after `insert_free_block`, for a free list and a new block
whose ranges are non-empty, lie below `P` and never share a byte. -/
theorem insert_free_block_spec (P : Nat) (hP : P < WORD) (o sz : Nat)
    (free : List block_info) (hsz : 0 < sz)
    (hpos : ∀ b ∈ free, 0 < b.size)
    (hcnt : ∀ x, cover_count x free + (if covers ⟨o, sz⟩ x then 1 else 0)
      ≤ if x < P then 1 else 0) :
    (insert_free_block o sz free).Pairwise gap ∧
    (∀ b ∈ insert_free_block o sz free, 0 < b.size ∧ b.offset + b.size ≤ P) ∧
    ∀ x, cover_count x (insert_free_block o sz free)
      = cover_count x free + (if covers ⟨o, sz⟩ x then 1 else 0) := by
  have hperm := insertion_sort_perm (free ++ [⟨o, sz⟩])
  have hcount : ∀ x, cover_count x (insertion_sort (free ++ [⟨o, sz⟩]))
      = cover_count x free + (if covers ⟨o, sz⟩ x then 1 else 0) := by
    intro x
    rw [cover_count_perm x hperm, cover_count_append]
    simp [cover_count]
  have hpos2 : ∀ b ∈ insertion_sort (free ++ [⟨o, sz⟩]), 0 < b.size := by
    intro b hb
    have := hperm.subset hb
    rcases List.mem_append.1 this with h | h
    · exact hpos b h
    · simp only [List.mem_singleton] at h
      subst h
      exact hsz
  have hle1 : ∀ x, cover_count x (insertion_sort (free ++ [⟨o, sz⟩])) ≤ 1 := by
    intro x
    rw [hcount x]
    have := hcnt x
    split_ifs at this ⊢ <;> omega
  have hzero : ∀ x, P ≤ x → cover_count x (insertion_sort (free ++ [⟨o, sz⟩])) = 0 := by
    intro x hx
    rw [hcount x]
    have := hcnt x
    rw [if_neg (show ¬ x < P by omega)] at this
    split_ifs at this ⊢ <;> omega
  have htouch := pairwise_touch_of_sorted_disjoint (insertion_sort_sorted _)
    (pairwise_disjoint_of_cover_count_le_one hpos2 hle1) hpos2
  obtain ⟨h1, h2, h3⟩ := merge_loop_spec P hP _ htouch
    (fun b hb => ⟨hpos2 b hb, end_le_of_cover_count hb (hpos2 b hb) hzero⟩)
  refine ⟨h1, h2, ?_⟩
  intro x
  unfold insert_free_block
  rw [h3 x, hcount x]

/-! ## The search loops of `alloc` and `dealloc` -/

theorem alloc_scan_append (sz : Nat) (pre : List block_info) (b : block_info)
    (post : List block_info) (hpre : ∀ c ∈ pre, c.size < sz) (hb : sz ≤ b.size) :
    alloc_scan sz (pre ++ b :: post) =
      some (⟨b.offset, sz⟩,
        pre ++ (if b.size = sz then post
                else ⟨(b.offset + sz) % WORD, b.size - sz⟩ :: post)) := by
  induction pre with
  | nil =>
    simp only [List.nil_append, alloc_scan, ge_iff_le, hb, if_true]
  | cons c t ih =>
    have hc : ¬ c.size ≥ sz := by
      have := hpre c (List.mem_cons_self _ _)
      omega
    have ht := ih (fun d hd => hpre d (List.mem_cons_of_mem _ hd))
    rw [List.cons_append, alloc_scan, if_neg hc, ht]
    rfl

theorem alloc_scan_none (sz : Nat) (free : List block_info) :
    alloc_scan sz free = none ↔ ∀ c ∈ free, c.size < sz := by
  induction free with
  | nil => simp [alloc_scan]
  | cons c t ih =>
    by_cases hc : c.size ≥ sz
    · simp only [alloc_scan, hc, if_true, List.mem_cons, forall_eq_or_imp]
      constructor
      · intro h; cases h
      · intro h; omega
    · simp only [alloc_scan, hc, if_false, List.mem_cons, forall_eq_or_imp]
      cases hscan : alloc_scan sz t with
      | none =>
        simp only [true_iff]
        exact ⟨by omega, ih.1 hscan⟩
      | some r =>
        constructor
        · intro h; cases h
        · intro h
          have := ih.2 h.2
          rw [hscan] at this
          cases this

/-- The first entry of a list that satisfies a decidable property splits the
list into the entries before it, none of which satisfies the property, the
entry itself, and the entries after it. -/
theorem exists_first_split {p : block_info → Prop} [DecidablePred p]
    (l : List block_info) (h : ∃ c ∈ l, p c) :
    ∃ pre b post, l = pre ++ b :: post ∧ (∀ c ∈ pre, ¬ p c) ∧ p b := by
  induction l with
  | nil => obtain ⟨c, hc, _⟩ := h; cases hc
  | cons a t ih =>
    by_cases ha : p a
    · exact ⟨[], a, t, rfl, by simp, ha⟩
    · have h2 : ∃ c ∈ t, p c := by
        obtain ⟨c, hc, hpc⟩ := h
        rcases List.mem_cons.1 hc with rfl | hct
        · exact absurd hpc ha
        · exact ⟨c, hct, hpc⟩
      obtain ⟨pre, b, post, hl, hpre, hb⟩ := ih h2
      refine ⟨a :: pre, b, post, by simp [hl], ?_, hb⟩
      intro c hc
      rcases List.mem_cons.1 hc with rfl | hct
      · exact ha
      · exact hpre c hct

theorem alloc_scan_some {sz : Nat} {free : List block_info} {a : block_info}
    {free2 : List block_info} (h : alloc_scan sz free = some (a, free2)) :
    ∃ pre b post, free = pre ++ b :: post ∧ (∀ c ∈ pre, c.size < sz) ∧ sz ≤ b.size ∧
      a = ⟨b.offset, sz⟩ ∧
      free2 = pre ++ (if b.size = sz then post
                      else ⟨(b.offset + sz) % WORD, b.size - sz⟩ :: post) := by
  have hex : ∃ c ∈ free, sz ≤ c.size := by
    by_contra hne
    have : alloc_scan sz free = none := by
      rw [alloc_scan_none]
      intro c hc
      by_contra hlt
      exact hne ⟨c, hc, by omega⟩
    rw [this] at h
    cases h
  obtain ⟨pre, b, post, hl, hpre, hb⟩ := exists_first_split (p := fun c => sz ≤ c.size) free hex
  have hpre2 : ∀ c ∈ pre, c.size < sz := fun c hc => by
    have := hpre c hc
    omega
  have := alloc_scan_append sz pre b post hpre2 hb
  rw [← hl, h] at this
  simp only [Option.some.injEq, Prod.mk.injEq] at this
  exact ⟨pre, b, post, hl, hpre2, hb, this.1, this.2⟩

theorem remove_allocated_append (off : Nat) (pre : List block_info) (b : block_info)
    (post : List block_info) (hpre : ∀ c ∈ pre, c.offset ≠ off) (hb : b.offset = off) :
    remove_allocated off (pre ++ b :: post) = some (b.size, pre ++ post) := by
  induction pre with
  | nil => simp only [List.nil_append, remove_allocated, hb, if_true]
  | cons c t ih =>
    have hc := hpre c (List.mem_cons_self _ _)
    have ht := ih (fun d hd => hpre d (List.mem_cons_of_mem _ hd))
    rw [List.cons_append, remove_allocated, if_neg hc, ht]
    rfl

theorem remove_allocated_none (off : Nat) (al : List block_info) :
    remove_allocated off al = none ↔ ∀ c ∈ al, c.offset ≠ off := by
  induction al with
  | nil => simp [remove_allocated]
  | cons c t ih =>
    by_cases hc : c.offset = off
    · simp only [remove_allocated, hc, if_true, List.mem_cons, forall_eq_or_imp]
      constructor
      · intro h; cases h
      · intro h; exact absurd rfl h.1
    · simp only [remove_allocated, hc, if_false, List.mem_cons, forall_eq_or_imp]
      cases hscan : remove_allocated off t with
      | none =>
        simp only [true_iff]
        exact ⟨hc, ih.1 hscan⟩
      | some r =>
        constructor
        · intro h; cases h
        · intro h
          have := ih.2 h.2
          rw [hscan] at this
          cases this

theorem remove_allocated_some {off : Nat} {al : List block_info} {bs : Nat}
    {al2 : List block_info} (h : remove_allocated off al = some (bs, al2)) :
    ∃ pre b post, al = pre ++ b :: post ∧ (∀ c ∈ pre, c.offset ≠ off) ∧ b.offset = off ∧
      bs = b.size ∧ al2 = pre ++ post := by
  have hex : ∃ c ∈ al, c.offset = off := by
    by_contra hne
    have : remove_allocated off al = none := by
      rw [remove_allocated_none]
      intro c hc heq
      exact hne ⟨c, hc, heq⟩
    rw [this] at h
    cases h
  obtain ⟨pre, b, post, hl, hpre, hb⟩ := exists_first_split (p := fun c => c.offset = off) al hex
  have := remove_allocated_append off pre b post hpre hb
  rw [← hl, h] at this
  simp only [Option.some.injEq, Prod.mk.injEq] at this
  exact ⟨pre, b, post, hl, hpre, hb, this.1, this.2⟩

/-- The function `alloc` on a valid size. -/
theorem alloc_valid (G : Nat) (size : Int) (s : State) (h0 : 0 < size)
    (hG : size.tmod (G : Int) = 0) :
    alloc G size s =
      match alloc_scan size.toNat s.free_blocks with
      | none => (0, s)
      | some (a, free) =>
        ((s.pool + a.offset) % WORD,
         { s with free_blocks := free, allocated_blocks := s.allocated_blocks ++ [a] }) := by
  unfold alloc
  rw [if_neg]
  intro h
  rcases h with h | h
  · omega
  · exact h hG

/-- The function `alloc` on an invalid size. -/
theorem alloc_invalid (G : Nat) (size : Int) (s : State)
    (h : size ≤ 0 ∨ size.tmod (G : Int) ≠ 0) : alloc G size s = (0, s) := by
  unfold alloc
  rw [if_pos h]

/-! ## The invariant holds in every reachable state -/

theorem ValidConfig.page_lt_word {P G m : Nat} (h : ValidConfig P G m) : P < WORD := by
  obtain ⟨_, _, _, hm, _, hmP⟩ := h
  omega

theorem Inv.free_end_le {P m : Nat} {s : State} (h : Inv P m s) :
    ∀ b ∈ s.free_blocks, b.offset + b.size ≤ P := by
  intro b hb
  refine end_le_of_cover_count hb (h.2.1 b hb) ?_
  intro x hx
  have := h.2.2.2.1 x
  rw [if_neg (show ¬ x < P by omega)] at this
  omega

theorem Inv.allocated_end_le {P m : Nat} {s : State} (h : Inv P m s) :
    ∀ b ∈ s.allocated_blocks, b.offset + b.size ≤ P := by
  intro b hb
  refine end_le_of_cover_count hb (h.2.2.1 b hb) ?_
  intro x hx
  have := h.2.2.2.1 x
  rw [if_neg (show ¬ x < P by omega)] at this
  omega

theorem inv_init {P G m : Nat} (hv : ValidConfig P G m) (s0 : State) :
    Inv P m (init_alloc P m s0).2 := by
  obtain ⟨_, _, hP, _, hm, _⟩ := hv
  unfold init_alloc
  rw [if_neg hm]
  refine ⟨rfl, ?_, ?_, ?_, List.pairwise_singleton _ _⟩
  · intro b hb
    simp only [List.mem_singleton] at hb
    subst hb
    exact hP
  · intro b hb
    cases hb
  · intro x
    simp [cover_count, covers]

/-- The invariant after the update that `alloc` makes at the entry `b` of the
free list. -/
theorem inv_alloc_at {P m : Nat} (hP : P < WORD) {s : State} (hinv : Inv P m s)
    (pre : List block_info) (b : block_info) (post : List block_info) (sz : Nat)
    (hfree : s.free_blocks = pre ++ b :: post) (hsz : 0 < sz) (hb : sz ≤ b.size) :
    Inv P m { s with
      free_blocks := pre ++ (if b.size = sz then post
                             else ⟨(b.offset + sz) % WORD, b.size - sz⟩ :: post),
      allocated_blocks := s.allocated_blocks ++ [⟨b.offset, sz⟩] } := by
  have hbmem : b ∈ s.free_blocks := by rw [hfree]; simp
  have hend := hinv.free_end_le b hbmem
  obtain ⟨hpool, hfpos, hapos, hcnt, hgap⟩ := hinv
  have hmod : (b.offset + sz) % WORD = b.offset + sz := Nat.mod_eq_of_lt (by omega)
  rw [hfree] at hfpos hcnt hgap
  refine ⟨hpool, ?_, ?_, ?_, ?_⟩
  · intro c hc
    simp only [List.mem_append] at hc
    rcases hc with hc | hc
    · exact hfpos c (by simp [hc])
    · by_cases heq : b.size = sz
      · rw [if_pos heq] at hc
        exact hfpos c (by simp [hc])
      · rw [if_neg heq] at hc
        rcases List.mem_cons.1 hc with rfl | hc
        · show 0 < b.size - sz
          omega
        · exact hfpos c (by simp [hc])
  · intro c hc
    simp only [List.mem_append, List.mem_singleton] at hc
    rcases hc with hc | rfl
    · exact hapos c hc
    · exact hsz
  · intro x
    have := hcnt x
    simp only [cover_count_append, cover_count, covers] at this ⊢
    by_cases heq : b.size = sz
    · rw [if_pos heq]
      subst heq
      omega
    · rw [if_neg heq, hmod]
      simp only [cover_count, covers]
      split_ifs at this ⊢ <;> omega
  · simp only [List.pairwise_append, List.pairwise_cons, List.mem_cons, forall_eq_or_imp] at hgap
    obtain ⟨hpre, ⟨hbpost, hpost⟩, hcross⟩ := hgap
    by_cases heq : b.size = sz
    · rw [if_pos heq]
      simp only [List.pairwise_append]
      exact ⟨hpre, hpost, fun a ha c hc => (hcross a ha).2 c hc⟩
    · rw [if_neg heq, hmod]
      simp only [List.pairwise_append, List.pairwise_cons, List.mem_cons, forall_eq_or_imp]
      refine ⟨hpre, ⟨?_, hpost⟩, ?_⟩
      · intro c hc
        have := hbpost c hc
        simp only [gap] at this ⊢
        omega
      · intro a ha
        refine ⟨?_, (hcross a ha).2⟩
        have := (hcross a ha).1
        simp only [gap] at this ⊢
        omega

theorem inv_alloc {P m : Nat} (hP : P < WORD) {s : State} (hinv : Inv P m s)
    (G : Nat) (size : Int) : Inv P m (alloc G size s).2 := by
  by_cases hval : size ≤ 0 ∨ size.tmod (G : Int) ≠ 0
  · rw [alloc_invalid G size s hval]
    exact hinv
  · have h0 : 0 < size := by
      by_contra h; exact hval (Or.inl (by omega))
    have hG : size.tmod (G : Int) = 0 := by
      by_contra h; exact hval (Or.inr h)
    rw [alloc_valid G size s h0 hG]
    cases hscan : alloc_scan size.toNat s.free_blocks with
    | none => exact hinv
    | some r =>
      obtain ⟨a, free2⟩ := r
      obtain ⟨pre, b, post, hfree, _, hb, ha, hfree2⟩ := alloc_scan_some hscan
      subst ha hfree2
      exact inv_alloc_at hP hinv pre b post size.toNat hfree (by omega) hb

/-- The invariant after the update that `dealloc` makes for the allocated
descriptor `b`. -/
theorem inv_dealloc_at {P m : Nat} (hP : P < WORD) {s : State} (hinv : Inv P m s)
    (pre : List block_info) (b : block_info) (post : List block_info)
    (hal : s.allocated_blocks = pre ++ b :: post) :
    Inv P m { s with
      free_blocks := insert_free_block b.offset b.size s.free_blocks,
      allocated_blocks := pre ++ post } ∧
    ∀ x, cover_count x (insert_free_block b.offset b.size s.free_blocks)
      = cover_count x s.free_blocks + (if covers b x then 1 else 0) := by
  obtain ⟨hpool, hfpos, hapos, hcnt, hgap⟩ := hinv
  rw [hal] at hapos hcnt
  have hbpos : 0 < b.size := hapos b (by simp)
  have hle : ∀ x, cover_count x s.free_blocks + (if covers ⟨b.offset, b.size⟩ x then 1 else 0)
      ≤ if x < P then 1 else 0 := by
    intro x
    have := hcnt x
    simp only [cover_count_append, cover_count] at this
    rw [← this]
    show _ + (if covers b x then 1 else 0) ≤ _
    omega
  obtain ⟨h1, h2, h3⟩ := insert_free_block_spec P hP b.offset b.size s.free_blocks hbpos hfpos hle
  refine ⟨⟨hpool, fun c hc => (h2 c hc).1, ?_, ?_, h1⟩, h3⟩
  · intro c hc
    exact hapos c (by
      simp only [List.mem_append] at hc
      rcases hc with hc | hc <;> simp [hc])
  · intro x
    have := hcnt x
    have h3x := h3 x
    simp only [cover_count_append, cover_count] at this ⊢
    change cover_count x (insert_free_block b.offset b.size s.free_blocks) = _ + (if covers b x then 1 else 0) at h3x
    show cover_count x (insert_free_block b.offset b.size s.free_blocks) + _ = _
    omega

theorem inv_dealloc {P m : Nat} (hP : P < WORD) {s : State} (hinv : Inv P m s)
    (ptr : Nat) : Inv P m (dealloc ptr s) := by
  unfold dealloc
  split_ifs with h
  · exact hinv
  · cases hrem : remove_allocated ((ptr + WORD - s.pool) % WORD) s.allocated_blocks with
    | none => exact hinv
    | some r =>
      obtain ⟨bs, al⟩ := r
      obtain ⟨pre, b, post, hal, _, hb, hbs, hal2⟩ := remove_allocated_some hrem
      subst hbs hal2
      rw [← hb]
      exact (inv_dealloc_at hP hinv pre b post hal).1

theorem reachable_inv {P G m : Nat} (hv : ValidConfig P G m) {s : State}
    (h : Reachable P G m s) : Inv P m s := by
  induction h with
  | init s0 => exact inv_init hv s0
  | alloc s size _ ih => exact inv_alloc hv.page_lt_word ih G size
  | dealloc s ptr _ ih => exact inv_dealloc hv.page_lt_word ih ptr

/-! ## Indices and splittings -/

theorem getElem?_split_mid (pre : List block_info) (b : block_info) (post : List block_info) :
    (pre ++ b :: post)[pre.length]? = some b := by
  induction pre with
  | nil => simp
  | cons a t ih => simpa using ih

theorem mem_of_getElem?_split_left (pre : List block_info) (b : block_info)
    (post : List block_info) {j : Nat} {c : block_info} (hj : j < pre.length)
    (h : (pre ++ b :: post)[j]? = some c) : c ∈ pre := by
  rw [List.getElem?_append_left hj] at h
  exact List.mem_iff_getElem?.2 ⟨j, h⟩

theorem index_split {l : List block_info} {k : Nat} {b : block_info} (h : l[k]? = some b) :
    ∃ pre post, l = pre ++ b :: post ∧ pre.length = k ∧
      ∀ c ∈ pre, ∃ j, j < k ∧ l[j]? = some c := by
  induction l generalizing k with
  | nil => simp at h
  | cons a t ih =>
    cases k with
    | zero =>
      simp only [List.getElem?_cons_zero, Option.some.injEq] at h
      subst h
      exact ⟨[], t, rfl, rfl, by simp⟩
    | succ n =>
      rw [List.getElem?_cons_succ] at h
      obtain ⟨pre, post, hl, hlen, hpre⟩ := ih h
      refine ⟨a :: pre, post, by rw [hl]; rfl, by simp [hlen], ?_⟩
      intro c hc
      rcases List.mem_cons.1 hc with rfl | hct
      · exact ⟨0, Nat.succ_pos _, List.getElem?_cons_zero⟩
      · obtain ⟨j, hj, hjc⟩ := hpre c hct
        exact ⟨j + 1, by omega, by rw [List.getElem?_cons_succ]; exact hjc⟩

theorem set_split_mid (pre : List block_info) (b c : block_info) (post : List block_info) :
    (pre ++ b :: post).set pre.length c = pre ++ c :: post := by
  induction pre with
  | nil => rfl
  | cons a t ih => simp

theorem eraseIdx_split_mid (pre : List block_info) (b : block_info) (post : List block_info) :
    (pre ++ b :: post).eraseIdx pre.length = pre ++ post := by
  induction pre with
  | nil => rfl
  | cons a t ih => simpa using ih

theorem pairwise_getElem? {R : block_info → block_info → Prop} {l : List block_info}
    (h : l.Pairwise R) {i j : Nat} {a b : block_info} (hij : i < j)
    (hi : l[i]? = some a) (hj : l[j]? = some b) : R a b := by
  obtain ⟨hi1, hi2⟩ := List.getElem?_eq_some.1 hi
  obtain ⟨hj1, hj2⟩ := List.getElem?_eq_some.1 hj
  have := List.pairwise_iff_getElem.1 h i j hi1 hj1 hij
  rwa [hi2, hj2] at this

theorem disjoint_of_gap {a b : block_info} (h : gap a b) : disjoint_ranges a b := by
  intro x hx
  simp only [gap, covers] at h hx
  omega

/-! ## The free list is determined by the bytes it covers -/

theorem cover_count_tail_zero {a : block_info} {t : List block_info}
    (h : (a :: t).Pairwise gap) {x : Nat} (hx : x ≤ a.offset + a.size) :
    cover_count x t = 0 := by
  apply cover_count_eq_zero
  intro c hc hcov
  have := (List.pairwise_cons.1 h).1 c hc
  simp only [gap, covers] at this hcov
  omega

theorem free_list_unique {l₁ : List block_info} :
    ∀ {l₂ : List block_info}, l₁.Pairwise gap → l₂.Pairwise gap →
      (∀ b ∈ l₁, 0 < b.size) → (∀ b ∈ l₂, 0 < b.size) →
      (∀ x, cover_count x l₁ = cover_count x l₂) → l₁ = l₂ := by
  induction l₁ with
  | nil =>
    intro l₂ _ _ _ p2 hc
    cases l₂ with
    | nil => rfl
    | cons b t =>
      have hb := p2 b (List.mem_cons_self _ _)
      have := hc b.offset
      simp only [cover_count, covers] at this
      rw [if_pos ⟨Nat.le_refl _, by omega⟩] at this
      omega
  | cons a t₁ ih =>
    intro l₂ h1 h2 p1 p2 hc
    have ha := p1 a (List.mem_cons_self _ _)
    cases l₂ with
    | nil =>
      have := hc a.offset
      simp only [cover_count, covers] at this
      rw [if_pos ⟨Nat.le_refl _, by omega⟩] at this
      omega
    | cons b t₂ =>
      have hb := p2 b (List.mem_cons_self _ _)
      have hoff : a.offset = b.offset := by
        by_contra hne
        rcases Nat.lt_or_gt_of_ne hne with hlt | hlt
        · have := hc a.offset
          have hz := cover_count_tail_zero h2 (x := a.offset) (by omega)
          simp only [cover_count, covers, hz] at this
          rw [if_pos ⟨Nat.le_refl _, by omega⟩, if_neg (by omega)] at this
          omega
        · have := hc b.offset
          have hz := cover_count_tail_zero h1 (x := b.offset) (by omega)
          simp only [cover_count, covers, hz] at this
          rw [if_neg (by omega), if_pos ⟨Nat.le_refl _, by omega⟩] at this
          omega
      have hsize : a.size = b.size := by
        by_contra hne
        rcases Nat.lt_or_gt_of_ne hne with hlt | hlt
        · have := hc (a.offset + a.size)
          have hz := cover_count_tail_zero h1 (x := a.offset + a.size) (Nat.le_refl _)
          simp only [cover_count, covers, hz] at this
          rw [if_neg (by omega), if_pos ⟨by omega, by omega⟩] at this
          omega
        · have := hc (b.offset + b.size)
          have hz := cover_count_tail_zero h2 (x := b.offset + b.size) (Nat.le_refl _)
          simp only [cover_count, covers, hz] at this
          rw [if_pos ⟨by omega, by omega⟩, if_neg (by omega)] at this
          omega
      have hab : a = b := by
        cases a; cases b
        simp only at hoff hsize
        subst hoff hsize
        rfl
      subst hab
      have htail : t₁ = t₂ := by
        apply ih (List.pairwise_cons.1 h1).2 (List.pairwise_cons.1 h2).2
          (fun c hc => p1 c (List.mem_cons_of_mem _ hc))
          (fun c hc => p2 c (List.mem_cons_of_mem _ hc))
        intro x
        have := hc x
        simp only [cover_count] at this
        omega
      rw [htail]

/-- Two states that satisfy the invariant and whose allocated lists cover the
same bytes have the same free list. -/
theorem free_blocks_determined {P m : Nat} {s₁ s₂ : State} (h1 : Inv P m s₁)
    (h2 : Inv P m s₂)
    (hc : ∀ x, cover_count x s₁.allocated_blocks = cover_count x s₂.allocated_blocks) :
    s₁.free_blocks = s₂.free_blocks := by
  apply free_list_unique h1.2.2.2.2 h2.2.2.2.2 h1.2.1 h2.2.1
  intro x
  have e1 := h1.2.2.2.1 x
  have e2 := h2.2.2.2.1 x
  have := hc x
  omega

/-! ## Deallocation of a live handle -/

/-- In a state that satisfies the invariant no two allocated descriptors have
the same offset. -/
theorem allocated_offset_unique {P m : Nat} {s : State} (hinv : Inv P m s)
    {pre post : List block_info} {b : block_info}
    (hal : s.allocated_blocks = pre ++ b :: post) :
    ∀ c ∈ pre ++ post, c.offset ≠ b.offset := by
  intro c hc heq
  have hbpos : 0 < b.size := hinv.2.2.1 b (by rw [hal]; simp)
  have hcpos : 0 < c.size := hinv.2.2.1 c (by
    rw [hal]
    rcases List.mem_append.1 hc with h | h <;> simp [h])
  have hcov : covers c b.offset := by
    simp only [covers]; omega
  have h1 := cover_count_pos_of_mem hc hcov
  have h2 := hinv.2.2.2.1 b.offset
  rw [hal] at h2
  simp only [cover_count_append, cover_count, covers] at h1 h2
  rw [if_pos ⟨Nat.le_refl _, by omega⟩] at h2
  split_ifs at h2 <;> omega

/-- The call `dealloc(pool + b.offset)` when `b` is the first allocated
descriptor with its offset: `b` leaves the allocated list and its range is
inserted in the free list. -/
theorem dealloc_at {P m : Nat} (hm : 0 < m) (hmP : m + P ≤ WORD) {s : State}
    (hinv : Inv P m s) (pre : List block_info) (b : block_info) (post : List block_info)
    (hal : s.allocated_blocks = pre ++ b :: post) (hpre : ∀ c ∈ pre, c.offset ≠ b.offset) :
    dealloc (m + b.offset) s = { s with
      free_blocks := insert_free_block b.offset b.size s.free_blocks,
      allocated_blocks := pre ++ post } := by
  have hend := hinv.allocated_end_le b (by rw [hal]; simp)
  have hoff : (m + b.offset + WORD - s.pool) % WORD = b.offset := by
    rw [hinv.1]
    have : m + b.offset + WORD - m = b.offset + WORD := by omega
    rw [this, Nat.add_mod_right]
    exact Nat.mod_eq_of_lt (by omega)
  unfold dealloc
  rw [if_neg (by rw [hinv.1]; omega), hoff, hal, remove_allocated_append _ pre b post hpre rfl]

/-- A call of `dealloc` whose offset matches no allocated descriptor changes
nothing. -/
theorem dealloc_no_match (ptr : Nat) (s : State)
    (h : ∀ c ∈ s.allocated_blocks, c.offset ≠ (ptr + WORD - s.pool) % WORD) :
    dealloc ptr s = s := by
  unfold dealloc
  rw [(remove_allocated_none _ _).2 h]
  split_ifs <;> rfl

/-- In a state that satisfies the invariant no allocated descriptor starts at
the offset of a free entry. -/
theorem allocated_offset_ne_free {P m : Nat} {s : State} (hinv : Inv P m s)
    {b c : block_info} (hb : b ∈ s.free_blocks) (hc : c ∈ s.allocated_blocks) :
    c.offset ≠ b.offset := by
  intro heq
  have hbpos := hinv.2.1 b hb
  have hcpos := hinv.2.2.1 c hc
  have h1 := cover_count_pos_of_mem hb (x := b.offset) (by simp only [covers]; omega)
  have h2 := cover_count_pos_of_mem hc (x := b.offset) (by simp only [covers]; omega)
  have h3 := hinv.2.2.2.1 b.offset
  split_ifs at h3 <;> omega

/-- The call `dealloc(pool + b.offset)` for an allocated descriptor `b` removes
`b` from the allocated list and inserts its range in the free list. -/
theorem dealloc_live {P m : Nat} (hm : 0 < m) (hmP : m + P ≤ WORD) {s : State}
    (hinv : Inv P m s) {b : block_info} (hb : b ∈ s.allocated_blocks) :
    ∃ pre post, s.allocated_blocks = pre ++ b :: post ∧
      (∀ c ∈ pre ++ post, c.offset ≠ b.offset) ∧
      dealloc (m + b.offset) s = { s with
        free_blocks := insert_free_block b.offset b.size s.free_blocks,
        allocated_blocks := pre ++ post } := by
  obtain ⟨pre, b2, post, hal, hpre, hb2⟩ :=
    exists_first_split (p := fun c => c.offset = b.offset) s.allocated_blocks ⟨b, hb, rfl⟩
  have huniq := allocated_offset_unique hinv hal
  have hbb : b = b2 := by
    rw [hal] at hb
    rcases List.mem_append.1 hb with h | h
    · exact absurd rfl (hpre b h)
    · rcases List.mem_cons.1 h with h | h
      · exact h
      · exact absurd hb2.symm (huniq b (List.mem_append_right _ h))
  subst hbb
  exact ⟨pre, post, hal, huniq,
    dealloc_at hm hmP hinv pre b post hal (fun c hc => huniq c (List.mem_append_left _ hc))⟩

/-- The state after the deallocation of a live handle satisfies the invariant,
and its allocated list covers the old bytes without those of the block. -/
theorem dealloc_live_inv {P m : Nat} (hP : P < WORD) (hm : 0 < m) (hmP : m + P ≤ WORD)
    {s : State} (hinv : Inv P m s) {b : block_info} (hb : b ∈ s.allocated_blocks) :
    Inv P m (dealloc (m + b.offset) s) ∧
    (∀ x, cover_count x (dealloc (m + b.offset) s).allocated_blocks
        + (if covers b x then 1 else 0) = cover_count x s.allocated_blocks) ∧
    (∀ c ∈ s.allocated_blocks, c ≠ b → c ∈ (dealloc (m + b.offset) s).allocated_blocks) ∧
    (∀ c ∈ (dealloc (m + b.offset) s).allocated_blocks, c.offset ≠ b.offset) := by
  obtain ⟨pre, post, hal, huniq, hde⟩ := dealloc_live hm hmP hinv hb
  rw [hde]
  refine ⟨(inv_dealloc_at hP hinv pre b post hal).1, ?_, ?_, huniq⟩
  · intro x
    rw [hal]
    simp only [cover_count_append, cover_count]
    omega
  · intro c hc hne
    rw [hal] at hc
    show c ∈ pre ++ post
    rcases List.mem_append.1 hc with h | h
    · exact List.mem_append_left _ h
    · rcases List.mem_cons.1 h with h | h
      · exact absurd h hne
      · exact List.mem_append_right _ h

/-! ## Deallocation of several live handles -/

theorem dealloc_all_cons (h : Nat) (hs : List Nat) (s : State) :
    dealloc_all (h :: hs) s = dealloc_all hs (dealloc h s) := rfl

/-- Deallocating the handles of a list of distinct allocated descriptors keeps
the invariant and takes exactly their bytes out of the allocated list. -/
theorem dealloc_all_live {P m : Nat} (hP : P < WORD) (hm : 0 < m) (hmP : m + P ≤ WORD)
    (bs : List block_info) :
    ∀ s : State, Inv P m s → bs.Nodup → (∀ b ∈ bs, b ∈ s.allocated_blocks) →
      Inv P m (dealloc_all (bs.map (fun b => m + b.offset)) s) ∧
      ∀ x, cover_count x (dealloc_all (bs.map (fun b => m + b.offset)) s).allocated_blocks
        + cover_count x bs = cover_count x s.allocated_blocks := by
  induction bs with
  | nil =>
    intro s hinv _ _
    exact ⟨hinv, fun x => rfl⟩
  | cons b t ih =>
    intro s hinv hnd hmem
    rw [List.nodup_cons] at hnd
    obtain ⟨hinv1, hcc, hkeep, _⟩ :=
      dealloc_live_inv hP hm hmP hinv (hmem b (List.mem_cons_self _ _))
    have hmem1 : ∀ c ∈ t, c ∈ (dealloc (m + b.offset) s).allocated_blocks := by
      intro c hc
      refine hkeep c (hmem c (List.mem_cons_of_mem _ hc)) ?_
      intro heq
      exact hnd.1 (heq ▸ hc)
    obtain ⟨h1, h2⟩ := ih (dealloc (m + b.offset) s) hinv1 hnd.2 hmem1
    rw [List.map_cons, dealloc_all_cons]
    refine ⟨h1, ?_⟩
    intro x
    have e1 := h2 x
    have e2 := hcc x
    simp only [cover_count]
    omega

/-- A run of bytes that the free list covers lies inside one free entry, when
there is a gap between any two entries. -/
theorem covered_run_in_one_block {l : List block_info} (hg : l.Pairwise gap) (a : Nat) :
    ∀ n, 0 < n → (∀ x, a ≤ x → x < a + n → 0 < cover_count x l) →
      ∃ b ∈ l, b.offset ≤ a ∧ a + n ≤ b.offset + b.size := by
  intro n
  induction n with
  | zero => intro h; exact absurd h (Nat.lt_irrefl 0)
  | succ k ih =>
    intro _ hcov
    by_cases hk : k = 0
    · subst hk
      obtain ⟨b, hb, hbx⟩ := exists_covers_of_cover_count_pos (hcov a (Nat.le_refl _) (by omega))
      simp only [covers] at hbx
      exact ⟨b, hb, hbx.1, by omega⟩
    · obtain ⟨b, hb, hb1, hb2⟩ := ih (Nat.pos_of_ne_zero hk)
        (fun x hx1 hx2 => hcov x hx1 (by omega))
      by_cases hlt : a + k < b.offset + b.size
      · exact ⟨b, hb, hb1, by omega⟩
      · obtain ⟨c, hc, hcx⟩ := exists_covers_of_cover_count_pos
          (hcov (a + k) (by omega) (by omega))
        simp only [covers] at hcx
        have hne : b ≠ c := by
          intro heq
          subst heq
          omega
        have hsymm : Symmetric (fun u v : block_info => gap u v ∨ gap v u) :=
          fun u v h => h.symm
        have := (hg.imp (fun {u v} (h : gap u v) => (Or.inl h : gap u v ∨ gap v u))).forall
          hsymm hb hc hne
        simp only [gap] at this
        omega

/-- The allocated list after `init_alloc` and three `alloc` calls of the same
valid size, when three blocks of that size fit in the page. -/
theorem allocated_after_three_allocs {P G m : Nat} (hv : ValidConfig P G m) (s0 : State)
    (size : Int) (h0 : 0 < size) (hG : size.tmod (G : Int) = 0)
    (h3 : 3 * size.toNat ≤ P) :
    (alloc G size (alloc G size (alloc G size (init_alloc P m s0).2).2).2).2.allocated_blocks
      = [⟨0, size.toNat⟩, ⟨size.toNat, size.toNat⟩, ⟨2 * size.toNat, size.toNat⟩] := by
  have hP := hv.page_lt_word
  obtain ⟨_, _, _, _, hmf, _⟩ := hv
  have hn : 0 < size.toNat := by omega
  have hi : (init_alloc P m s0).2 = ⟨m, [⟨0, P⟩], []⟩ := by
    unfold init_alloc
    rw [if_neg hmf]
  have e1 : (alloc G size ⟨m, [⟨0, P⟩], []⟩).2
      = ⟨m, [⟨size.toNat, P - size.toNat⟩], [⟨0, size.toNat⟩]⟩ := by
    rw [alloc_valid G size _ h0 hG]
    have := alloc_scan_append size.toNat [] ⟨0, P⟩ [] (by simp) (by show size.toNat ≤ P; omega)
    simp only [List.nil_append] at this
    rw [if_neg (by show ¬ P = size.toNat; omega)] at this
    simp only [this, Nat.zero_add, List.nil_append]
    rw [Nat.mod_eq_of_lt (by omega)]
  have e2 : (alloc G size ⟨m, [⟨size.toNat, P - size.toNat⟩], [⟨0, size.toNat⟩]⟩).2
      = ⟨m, [⟨2 * size.toNat, P - 2 * size.toNat⟩],
          [⟨0, size.toNat⟩, ⟨size.toNat, size.toNat⟩]⟩ := by
    rw [alloc_valid G size _ h0 hG]
    have := alloc_scan_append size.toNat [] ⟨size.toNat, P - size.toNat⟩ []
      (by simp) (by show size.toNat ≤ P - size.toNat; omega)
    simp only [List.nil_append] at this
    rw [if_neg (by show ¬ P - size.toNat = size.toNat; omega)] at this
    simp only [this, List.singleton_append]
    rw [Nat.mod_eq_of_lt (by omega)]
    have ha : size.toNat + size.toNat = 2 * size.toNat := by omega
    have hb : P - size.toNat - size.toNat = P - 2 * size.toNat := by omega
    rw [ha, hb]
  have e3 : (alloc G size ⟨m, [⟨2 * size.toNat, P - 2 * size.toNat⟩],
        [⟨0, size.toNat⟩, ⟨size.toNat, size.toNat⟩]⟩).2.allocated_blocks
      = [⟨0, size.toNat⟩, ⟨size.toNat, size.toNat⟩, ⟨2 * size.toNat, size.toNat⟩] := by
    rw [alloc_valid G size _ h0 hG]
    have := alloc_scan_append size.toNat [] ⟨2 * size.toNat, P - 2 * size.toNat⟩ []
      (by simp) (by show size.toNat ≤ P - 2 * size.toNat; omega)
    simp only [List.nil_append] at this
    simp only [this]
    rfl
  rw [hi, e1, e2, e3]

/-! ## Further consequences of the invariant -/

/-- In a state that satisfies the invariant the allocated descriptors have
pairwise distinct offsets. -/
theorem allocated_offsets_pairwise_ne {P m : Nat} {s : State} (hinv : Inv P m s) :
    s.allocated_blocks.Pairwise (fun a b => a.offset ≠ b.offset) := by
  have hpos := hinv.2.2.1
  have hle : ∀ x, cover_count x s.allocated_blocks ≤ 1 := by
    intro x
    have := hinv.2.2.2.1 x
    split_ifs at this <;> omega
  refine (pairwise_disjoint_of_cover_count_le_one hpos hle).imp_of_mem ?_
  intro a b ha hb hd heq
  have h1 := hpos a ha
  have h2 := hpos b hb
  refine hd a.offset ⟨?_, ?_⟩
  · simp only [covers]; omega
  · simp only [covers]; omega

/-- The bytes covered by a list, in terms of `cover_count`. -/
theorem exists_covers_iff {x : Nat} {l : List block_info} :
    (∃ c ∈ l, covers c x) ↔ 0 < cover_count x l :=
  ⟨fun ⟨_, hc, hcx⟩ => cover_count_pos_of_mem hc hcx, exists_covers_of_cover_count_pos⟩

theorem tmod_of_dvd {P G : Nat} (h : G ∣ P) : (P : Int).tmod (G : Int) = 0 := by
  rw [Int.tmod_eq_emod (Int.natCast_nonneg _) (Int.natCast_nonneg _)]
  exact Int.emod_eq_zero_of_dvd (Int.natCast_dvd_natCast.2 h)

/-! ## The merge loop on arbitrary lists inside the address space -/

theorem size_sum_append (l₁ l₂ : List block_info) :
    size_sum (l₁ ++ l₂) = size_sum l₁ + size_sum l₂ := by
  induction l₁ with
  | nil => simp [size_sum]
  | cons a t ih => simp [size_sum, ih, Nat.add_assoc]

theorem size_sum_perm {l₁ l₂ : List block_info} (h : l₁.Perm l₂) :
    size_sum l₁ = size_sum l₂ := by
  induction h with
  | nil => rfl
  | cons a _ ih => simp [size_sum, ih]
  | swap a b l => simp only [size_sum]; omega
  | trans _ _ ih₁ ih₂ => exact ih₁.trans ih₂

/-- The merge loop, for any list whose ranges all end below `2^64`: the sizes
keep their sum, every byte is covered as often as before, the ranges still end
below `2^64`, multiples of `G` stay multiples of `G`, no entry of the result
ends at the offset of the next one, the first entry keeps the offset of `cur`,
and the offsets of the result are a sublist of the old offsets. -/
theorem merge_from_general (G : Nat) (rest : List block_info) :
    ∀ cur : block_info, (∀ b ∈ cur :: rest, b.offset + b.size < WORD) →
      size_sum (merge_from cur rest) = size_sum (cur :: rest) ∧
      (∀ x, cover_count x (merge_from cur rest) = cover_count x (cur :: rest)) ∧
      (∀ b ∈ merge_from cur rest, b.offset + b.size < WORD) ∧
      (aligned G (cur :: rest) → aligned G (merge_from cur rest)) ∧
      (merge_from cur rest).Chain' (fun a b => (a.offset + a.size) % WORD ≠ b.offset) ∧
      (∃ sz tl, merge_from cur rest = ⟨cur.offset, sz⟩ :: tl) ∧
      ((merge_from cur rest).map (fun b => b.offset)).Sublist
        ((cur :: rest).map (fun b => b.offset)) := by
  induction rest with
  | nil =>
    intro cur hb
    refine ⟨rfl, fun x => rfl, hb, fun h => h, List.chain'_singleton _,
      ⟨cur.size, [], rfl⟩, List.Sublist.refl _⟩
  | cons nxt t ih =>
    intro cur hb
    have hcur := hb cur (List.mem_cons_self _ _)
    have hnxt := hb nxt (List.mem_cons_of_mem _ (List.mem_cons_self _ _))
    have hmod : (cur.offset + cur.size) % WORD = cur.offset + cur.size :=
      Nat.mod_eq_of_lt hcur
    by_cases hadj : cur.offset + cur.size = nxt.offset
    · have hsz : (cur.size + nxt.size) % WORD = cur.size + nxt.size :=
        Nat.mod_eq_of_lt (by omega)
      have hstep : merge_from cur (nxt :: t) =
          merge_from { offset := cur.offset, size := cur.size + nxt.size } t := by
        rw [merge_from, if_pos (hmod.trans hadj), hsz]
      have hb2 : ∀ b ∈ ({ offset := cur.offset, size := cur.size + nxt.size } : block_info) :: t,
          b.offset + b.size < WORD := by
        intro b hbm
        rcases List.mem_cons.1 hbm with rfl | hbt
        · show cur.offset + (cur.size + nxt.size) < WORD
          omega
        · exact hb b (List.mem_cons_of_mem _ (List.mem_cons_of_mem _ hbt))
      obtain ⟨h1, h2, h3, h4, h5, h6, h7⟩ := ih _ hb2
      rw [hstep]
      refine ⟨?_, ?_, h3, ?_, h5, h6, ?_⟩
      · rw [h1]
        simp only [size_sum]
        omega
      · intro x
        rw [h2 x]
        simp only [cover_count, covers]
        split_ifs <;> omega
      · intro hal
        apply h4
        intro b hbm
        rcases List.mem_cons.1 hbm with rfl | hbt
        · have hc := hal cur (List.mem_cons_self _ _)
          have hn := hal nxt (List.mem_cons_of_mem _ (List.mem_cons_self _ _))
          exact ⟨hc.1, Nat.dvd_add hc.2 hn.2⟩
        · exact hal b (List.mem_cons_of_mem _ (List.mem_cons_of_mem _ hbt))
      · exact h7.trans (by
          simp only [List.map_cons]
          exact List.Sublist.cons₂ _ (List.Sublist.cons _ (List.Sublist.refl _)))
    · have hstep : merge_from cur (nxt :: t) = cur :: merge_from nxt t := by
        rw [merge_from, if_neg (by rw [hmod]; exact hadj)]
      have hb2 : ∀ b ∈ nxt :: t, b.offset + b.size < WORD :=
        fun b hbm => hb b (List.mem_cons_of_mem _ hbm)
      obtain ⟨h1, h2, h3, h4, h5, h6, h7⟩ := ih nxt hb2
      rw [hstep]
      refine ⟨?_, ?_, ?_, ?_, ?_, ⟨cur.size, merge_from nxt t, rfl⟩, ?_⟩
      · simp only [size_sum, h1]
      · intro x
        simp only [cover_count, h2 x]
      · intro b hbm
        rcases List.mem_cons.1 hbm with rfl | hbt
        · exact hcur
        · exact h3 b hbt
      · intro hal b hbm
        rcases List.mem_cons.1 hbm with rfl | hbt
        · exact hal b (List.mem_cons_self _ _)
        · exact h4 (fun c hc => hal c (List.mem_cons_of_mem _ hc)) b hbt
      · obtain ⟨sz, tl, htl⟩ := h6
        rw [htl] at h5 ⊢
        refine List.Chain'.cons ?_ h5
        show (cur.offset + cur.size) % WORD ≠ nxt.offset
        rw [hmod]
        exact hadj
      · simp only [List.map_cons]
        exact List.Sublist.cons₂ _ h7

theorem chain'_getElem? {R : block_info → block_info → Prop} {l : List block_info}
    (h : l.Chain' R) {i : Nat} {a b : block_info}
    (hi : l[i]? = some a) (hj : l[i + 1]? = some b) : R a b := by
  induction l generalizing i with
  | nil => simp at hi
  | cons x t ih =>
    cases i with
    | zero =>
      cases t with
      | nil => simp at hj
      | cons y t2 =>
        simp only [List.getElem?_cons_zero, List.getElem?_cons_succ, Option.some.injEq] at hi hj
        subst hi hj
        exact (List.chain'_cons.1 h).1
    | succ n =>
      rw [List.getElem?_cons_succ] at hi hj
      exact ih (List.Chain'.tail h) hi hj

/-- The helper `insert_free_block` on any free list whose ranges, like that of
the new block, end below `2^64`. -/
theorem insert_free_block_general (G : Nat) (o sz : Nat) (free : List block_info)
    (hbound : ∀ b ∈ free, b.offset + b.size < WORD) (hnb : o + sz < WORD) :
    size_sum (insert_free_block o sz free) = size_sum free + sz ∧
    (∀ x, cover_count x (insert_free_block o sz free)
      = cover_count x free + (if covers ⟨o, sz⟩ x then 1 else 0)) ∧
    (∀ b ∈ insert_free_block o sz free, b.offset + b.size < WORD) ∧
    (aligned G free → G ∣ o → G ∣ sz → aligned G (insert_free_block o sz free)) ∧
    (insert_free_block o sz free).Chain' (fun a b => (a.offset + a.size) % WORD ≠ b.offset) ∧
    (insert_free_block o sz free).Pairwise (fun a b => a.offset ≤ b.offset) ∧
    (insert_free_block o sz free).length ≤ free.length + 1 := by
  have hperm := insertion_sort_perm (free ++ [⟨o, sz⟩])
  have hsorted := insertion_sort_sorted (free ++ [⟨o, sz⟩])
  unfold insert_free_block
  cases hl : insertion_sort (free ++ [⟨o, sz⟩]) with
  | nil =>
    have := hperm.length_eq
    rw [hl] at this
    simp at this
  | cons a t =>
    rw [hl] at hperm hsorted
    have hb : ∀ b ∈ a :: t, b.offset + b.size < WORD := by
      intro b hbm
      rcases List.mem_append.1 (hperm.subset hbm) with h | h
      · exact hbound b h
      · simp only [List.mem_singleton] at h
        subst h
        exact hnb
    obtain ⟨h1, h2, h3, h4, h5, _, h7⟩ := merge_from_general G t a hb
    refine ⟨?_, ?_, h3, ?_, h5, ?_, ?_⟩
    · show size_sum (merge_from a t) = _
      rw [h1, size_sum_perm hperm, size_sum_append]
      simp [size_sum]
    · intro x
      show cover_count x (merge_from a t) = _
      rw [h2 x, cover_count_perm x hperm, cover_count_append]
      simp [cover_count]
    · intro hal ho hs
      apply h4
      intro b hbm
      rcases List.mem_append.1 (hperm.subset hbm) with h | h
      · exact hal b h
      · simp only [List.mem_singleton] at h
        subst h
        exact ⟨ho, hs⟩
    · show (merge_from a t).Pairwise _
      have hs2 : ((a :: t).map (fun b => b.offset)).Pairwise (fun x y => x ≤ y) :=
        List.pairwise_map.2 hsorted
      exact List.pairwise_map.1 (hs2.sublist h7)
    · show (merge_from a t).length ≤ _
      have e1 := h7.length_le
      have e2 := hperm.length_eq
      simp only [List.length_map, List.length_append, List.length_cons, List.length_nil] at e1 e2
      omega

/-! ## Alignment and total size in every reachable state -/

theorem toNat_dvd_of_tmod {G : Nat} {size : Int} (h0 : 0 < size)
    (hG : size.tmod (G : Int) = 0) : G ∣ size.toNat := by
  rw [Int.tmod_eq_emod (Int.le_of_lt h0) (Int.natCast_nonneg _)] at hG
  have h1 : (G : Int) ∣ size := Int.dvd_of_emod_eq_zero hG
  rw [← Int.toNat_of_nonneg (Int.le_of_lt h0)] at h1
  exact Int.natCast_dvd_natCast.1 h1

theorem inv_aligned_init {P G m : Nat} (hv : ValidConfig P G m) (s0 : State) :
    InvAligned P G (init_alloc P m s0).2 := by
  obtain ⟨_, hGP, _, _, hm, _⟩ := hv
  unfold init_alloc
  rw [if_neg hm]
  refine ⟨?_, ?_, ?_⟩
  · intro b hb
    simp only [List.mem_singleton] at hb
    subst hb
    exact ⟨Nat.dvd_zero _, hGP⟩
  · intro b hb
    cases hb
  · simp [size_sum]

theorem inv_aligned_alloc {P G m : Nat} (hP : P < WORD) {s : State} (hinv : Inv P m s)
    (hal : InvAligned P G s) (size : Int) : InvAligned P G (alloc G size s).2 := by
  by_cases hval : size ≤ 0 ∨ size.tmod (G : Int) ≠ 0
  · rw [alloc_invalid G size s hval]
    exact hal
  · have h0 : 0 < size := by
      by_contra h; exact hval (Or.inl (by omega))
    have hG : size.tmod (G : Int) = 0 := by
      by_contra h; exact hval (Or.inr h)
    have hdvd := toNat_dvd_of_tmod h0 hG
    rw [alloc_valid G size s h0 hG]
    cases hscan : alloc_scan size.toNat s.free_blocks with
    | none => exact hal
    | some r =>
      obtain ⟨a, free2⟩ := r
      obtain ⟨pre, b, post, hfree, _, hb, ha, hfree2⟩ := alloc_scan_some hscan
      subst ha hfree2
      have hbmem : b ∈ s.free_blocks := by rw [hfree]; simp
      have hend := hinv.free_end_le b hbmem
      have hmod : (b.offset + size.toNat) % WORD = b.offset + size.toNat :=
        Nat.mod_eq_of_lt (by omega)
      obtain ⟨hfa, haa, hsum⟩ := hal
      have hba := hfa b hbmem
      rw [hfree] at hfa hsum
      refine ⟨?_, ?_, ?_⟩
      · intro c hc
        show G ∣ c.offset ∧ G ∣ c.size
        change c ∈ pre ++ _ at hc
        rcases List.mem_append.1 hc with hc | hc
        · exact hfa c (by simp [hc])
        · by_cases heq : b.size = size.toNat
          · rw [if_pos heq] at hc
            exact hfa c (by simp [hc])
          · rw [if_neg heq, hmod] at hc
            rcases List.mem_cons.1 hc with rfl | hc
            · exact ⟨Nat.dvd_add hba.1 hdvd, Nat.dvd_sub' hba.2 hdvd⟩
            · exact hfa c (by simp [hc])
      · intro c hc
        change c ∈ s.allocated_blocks ++ _ at hc
        rcases List.mem_append.1 hc with hc | hc
        · exact haa c hc
        · simp only [List.mem_singleton] at hc
          subst hc
          exact ⟨hba.1, hdvd⟩
      · show size_sum (pre ++ _) + size_sum (s.allocated_blocks ++ _) = P
        simp only [size_sum_append, size_sum] at hsum ⊢
        by_cases heq : b.size = size.toNat
        · rw [if_pos heq]
          omega
        · rw [if_neg heq]
          simp only [size_sum]
          omega

theorem inv_aligned_dealloc {P G m : Nat} (hP : P < WORD) {s : State} (hinv : Inv P m s)
    (hal : InvAligned P G s) (ptr : Nat) : InvAligned P G (dealloc ptr s) := by
  unfold dealloc
  split_ifs with h
  · exact hal
  · cases hrem : remove_allocated ((ptr + WORD - s.pool) % WORD) s.allocated_blocks with
    | none => exact hal
    | some r =>
      obtain ⟨bs, al⟩ := r
      obtain ⟨pre, b, post, hall, _, hb, hbs, hal2⟩ := remove_allocated_some hrem
      subst hbs hal2
      rw [← hb]
      have hbmem : b ∈ s.allocated_blocks := by rw [hall]; simp
      have hend := hinv.allocated_end_le b hbmem
      have hbound : ∀ c ∈ s.free_blocks, c.offset + c.size < WORD := by
        intro c hc
        have := hinv.free_end_le c hc
        omega
      obtain ⟨h1, _, _, h4, _, _, _⟩ :=
        insert_free_block_general G b.offset b.size s.free_blocks hbound (by omega)
      obtain ⟨hfa, haa, hsum⟩ := hal
      have hba := haa b hbmem
      rw [hall] at haa hsum
      refine ⟨h4 hfa hba.1 hba.2, ?_, ?_⟩
      · intro c hc
        change c ∈ pre ++ post at hc
        exact haa c (by
          rcases List.mem_append.1 hc with hc | hc <;> simp [hc])
      · show size_sum (insert_free_block b.offset b.size s.free_blocks)
          + size_sum (pre ++ post) = P
        rw [h1]
        simp only [size_sum_append, size_sum] at hsum ⊢
        omega

theorem reachable_aligned {P G m : Nat} (hv : ValidConfig P G m) {s : State}
    (h : Reachable P G m s) : InvAligned P G s := by
  induction h with
  | init s0 => exact inv_aligned_init hv s0
  | alloc s size hs ih =>
    exact inv_aligned_alloc hv.page_lt_word (reachable_inv hv hs) ih size
  | dealloc s ptr hs ih =>
    exact inv_aligned_dealloc hv.page_lt_word (reachable_inv hv hs) ih ptr

/-- A list of non-empty descriptors whose sizes are multiples of `G` has at
most `size_sum / G` entries. -/
theorem length_mul_le_size_sum {G : Nat} {l : List block_info} (hal : aligned G l)
    (hpos : ∀ b ∈ l, 0 < b.size) : l.length * G ≤ size_sum l := by
  induction l with
  | nil => simp [size_sum]
  | cons a t ih =>
    have h1 := ih (fun b hb => hal b (List.mem_cons_of_mem _ hb))
      (fun b hb => hpos b (List.mem_cons_of_mem _ hb))
    have h2 := Nat.le_of_dvd (hpos a (List.mem_cons_self _ _)) (hal a (List.mem_cons_self _ _)).2
    simp only [List.length_cons, size_sum, Nat.add_mul, Nat.one_mul]
    omega

/-- In a gapped list of non-empty aligned descriptors that end at or below `P`,
every entry takes at least `G` bytes and every gap at least `G` bytes. -/
theorem gapped_length_bound {P G : Nat} (t : List block_info) :
    ∀ a : block_info, (a :: t).Pairwise gap → aligned G (a :: t) →
      (∀ b ∈ a :: t, 0 < b.size ∧ b.offset + b.size ≤ P) →
      a.offset + (2 * t.length + 1) * G ≤ P := by
  induction t with
  | nil =>
    intro a _ hal hb
    have h1 := hb a (List.mem_cons_self _ _)
    have h2 := Nat.le_of_dvd h1.1 (hal a (List.mem_cons_self _ _)).2
    simp only [List.length_nil, Nat.mul_zero, Nat.zero_add, Nat.one_mul]
    omega
  | cons b t2 ih =>
    intro a hg hal hb
    rw [List.pairwise_cons] at hg
    have hih := ih b hg.2 (fun c hc => hal c (List.mem_cons_of_mem _ hc))
      (fun c hc => hb c (List.mem_cons_of_mem _ hc))
    have ha := hb a (List.mem_cons_self _ _)
    have haa := hal a (List.mem_cons_self _ _)
    have hba := hal b (List.mem_cons_of_mem _ (List.mem_cons_self _ _))
    have hgab : a.offset + a.size < b.offset := hg.1 b (List.mem_cons_self _ _)
    have hsz : G ≤ a.size := Nat.le_of_dvd ha.1 haa.2
    have hstep : a.offset + a.size + G ≤ b.offset := by
      obtain ⟨k1, hk1⟩ := Nat.dvd_add haa.1 haa.2
      obtain ⟨k2, hk2⟩ := hba.1
      rw [hk1, hk2] at hgab ⊢
      have hlt : k1 < k2 := Nat.lt_of_mul_lt_mul_left hgab
      have : G * (k1 + 1) ≤ G * k2 := Nat.mul_le_mul_left G hlt
      rw [Nat.mul_add, Nat.mul_one] at this
      exact this
    have hexp : (2 * (b :: t2).length + 1) * G = 2 * G + (2 * t2.length + 1) * G := by
      simp only [List.length_cons]
      ring
    rw [hexp]
    omega

/-! ## Successful allocations and capacity -/

/-- A call of `alloc` that returns a non-null pointer, in a state that
satisfies the invariant: the pointer is `pool + offset` of a free entry that
fits, and one descriptor with that offset is appended to the allocated list. -/
theorem alloc_success {P m : Nat} (hmP : m + P ≤ WORD) {s : State} (hinv : Inv P m s)
    (G : Nat) (size : Int) (hok : (alloc G size s).1 ≠ 0) :
    0 < size ∧ size.tmod (G : Int) = 0 ∧
    ∃ b ∈ s.free_blocks, size.toNat ≤ b.size ∧ (alloc G size s).1 = s.pool + b.offset ∧
      (alloc G size s).2.allocated_blocks = s.allocated_blocks ++ [⟨b.offset, size.toNat⟩] := by
  have hval : ¬ (size ≤ 0 ∨ size.tmod (G : Int) ≠ 0) := by
    intro h
    rw [alloc_invalid G size s h] at hok
    exact hok rfl
  have h0 : 0 < size := by
    by_contra h; exact hval (Or.inl (by omega))
  have hG : size.tmod (G : Int) = 0 := by
    by_contra h; exact hval (Or.inr h)
  refine ⟨h0, hG, ?_⟩
  rw [alloc_valid G size s h0 hG] at hok ⊢
  cases hscan : alloc_scan size.toNat s.free_blocks with
  | none =>
    rw [hscan] at hok
    exact absurd rfl hok
  | some r =>
    obtain ⟨a, free2⟩ := r
    obtain ⟨pre, b, post, hfree, _, hb, ha, _⟩ := alloc_scan_some hscan
    have hbmem : b ∈ s.free_blocks := by rw [hfree]; simp
    have hend := hinv.free_end_le b hbmem
    subst ha
    refine ⟨b, hbmem, hb, ?_, rfl⟩
    show (s.pool + b.offset) % WORD = s.pool + b.offset
    rw [hinv.1]
    exact Nat.mod_eq_of_lt (by omega)

/-- A call of `alloc` either leaves the state as it is or appends one
descriptor to the allocated list. -/
theorem alloc_unchanged_or_appended (G : Nat) (size : Int) (s : State) :
    (alloc G size s).2 = s ∨
    (alloc G size s).2.allocated_blocks.length = s.allocated_blocks.length + 1 := by
  unfold alloc
  split_ifs
  · exact Or.inl rfl
  · cases alloc_scan size.toNat s.free_blocks with
    | none => exact Or.inl rfl
    | some r =>
      right
      simp

/-- The capacity bounds of a reachable state, for any page size and
granularity. -/
theorem capacity_bounds {P G m : Nat} (hv : ValidConfig P G m) {s : State}
    (hr : Reachable P G m s) :
    s.allocated_count ≤ P / G ∧ s.free_count ≤ P / (2 * G) + 1 := by
  have hinv := reachable_inv hv hr
  obtain ⟨hfa, haa, hsum⟩ := reachable_aligned hv hr
  have hG : 0 < G := hv.1
  constructor
  · have := length_mul_le_size_sum haa hinv.2.2.1
    rw [State.allocated_count, Nat.le_div_iff_mul_le hG]
    omega
  · rw [State.free_count]
    cases hfree : s.free_blocks with
    | nil => simp
    | cons a t =>
      have hg := hinv.2.2.2.2
      rw [hfree] at hg hfa
      have hb : ∀ b ∈ a :: t, 0 < b.size ∧ b.offset + b.size ≤ P := by
        intro b hb
        rw [← hfree] at hb
        exact ⟨hinv.2.1 b hb, hinv.free_end_le b hb⟩
      have h1 := gapped_length_bound t a hg hfa hb
      have h2 : (2 * t.length + 1) * G = t.length * (2 * G) + G := by ring
      have h3 : t.length ≤ P / (2 * G) := by
        rw [Nat.le_div_iff_mul_le (by omega)]
        omega
      simp only [List.length_cons]
      omega

/-- With `P / G <= MAX_BLOCKS`, in every reachable state both counts are within
the arrays and every write is inside them: `insert_free_block` stores at index
`free_count`, and a call of `alloc` that changes the state stores at index
`allocated_count`; both indices are below `MAX_BLOCKS`.  Along every sequence
of calls the lists of the model are therefore the live parts of the arrays. -/
theorem writes_in_bounds {P G m : Nat} (hv : ValidConfig P G m)
    (hcap : P / G ≤ MAX_BLOCKS) {s : State} (hr : Reachable P G m s) :
    s.allocated_count ≤ MAX_BLOCKS ∧ s.free_count < MAX_BLOCKS ∧
    (∀ size : Int, (alloc G size s).2 ≠ s → s.allocated_count < MAX_BLOCKS) := by
  obtain ⟨h1, h2⟩ := capacity_bounds hv hr
  have e : MAX_BLOCKS = 512 := rfl
  have h3 : P / (2 * G) = P / G / 2 := by
    rw [Nat.mul_comm, Nat.div_div_eq_div_mul]
  refine ⟨by omega, by omega, ?_⟩
  intro size hne
  have h5 := (capacity_bounds hv (Reachable.alloc s size hr)).1
  rcases alloc_unchanged_or_appended G size s with h | h
  · exact absurd h hne
  · simp only [State.allocated_count] at h5 ⊢
    omega

/-! ## The claims -/

/-- C1, partition invariant: with `P` a positive multiple of `G` and `P / G <=
MAX_BLOCKS`, so that no call writes outside the two arrays, in every state
reachable from a successful `init_alloc` by `alloc` and `dealloc` calls, every
descriptor of the free list and of the allocated list has a positive size and
ends at or below `P`, the byte ranges of all descriptors of both lists are
pairwise disjoint, and a byte lies in one of them exactly when it is below `P`.
-/
theorem C1_partition_invariant (P G m : Nat) (s : State) (hv : ValidConfig P G m)
    (hcap : P / G ≤ MAX_BLOCKS)
    (hr : Reachable P G m s) :
    (∀ b ∈ s.free_blocks ++ s.allocated_blocks, 0 < b.size ∧ b.offset + b.size ≤ P) ∧
    (s.free_blocks ++ s.allocated_blocks).Pairwise disjoint_ranges ∧
    (∀ x, x < P ↔ ∃ b ∈ s.free_blocks ++ s.allocated_blocks, covers b x) := by
  have _hbounds := writes_in_bounds hv hcap hr
  have hinv := reachable_inv hv hr
  have hpos : ∀ b ∈ s.free_blocks ++ s.allocated_blocks, 0 < b.size := by
    intro b hb
    rcases List.mem_append.1 hb with h | h
    · exact hinv.2.1 b h
    · exact hinv.2.2.1 b h
  have hcnt : ∀ x, cover_count x (s.free_blocks ++ s.allocated_blocks)
      = if x < P then 1 else 0 := by
    intro x
    rw [cover_count_append]
    exact hinv.2.2.2.1 x
  refine ⟨?_, ?_, ?_⟩
  · intro b hb
    refine ⟨hpos b hb, ?_⟩
    rcases List.mem_append.1 hb with h | h
    · exact hinv.free_end_le b h
    · exact hinv.allocated_end_le b h
  · refine pairwise_disjoint_of_cover_count_le_one hpos ?_
    intro x
    rw [hcnt x]
    split_ifs <;> omega
  · intro x
    constructor
    · intro hx
      apply exists_covers_of_cover_count_pos
      rw [hcnt x, if_pos hx]
      exact Nat.one_pos
    · rintro ⟨b, hb, hbx⟩
      have := cover_count_pos_of_mem hb hbx
      rw [hcnt x] at this
      by_contra hlt
      rw [if_neg hlt] at this
      omega

/-- The partition invariant in the state after `init_alloc` and `alloc(128)`,
with a page of 4096 bytes and granularity 64. -/
theorem C1_partition_invariant_witness :
    ValidConfig 4096 64 65536 ∧ 4096 / 64 ≤ MAX_BLOCKS ∧
    Reachable 4096 64 65536 example_one ∧
    (∀ b ∈ example_one.free_blocks ++ example_one.allocated_blocks,
      0 < b.size ∧ b.offset + b.size ≤ 4096) ∧
    (example_one.free_blocks ++ example_one.allocated_blocks).Pairwise disjoint_ranges ∧
    (∀ x, x < 4096 ↔
      ∃ b ∈ example_one.free_blocks ++ example_one.allocated_blocks, covers b x) :=
  ⟨by decide, by decide, Reachable.alloc _ _ (Reachable.init _),
    C1_partition_invariant 4096 64 65536 example_one (by decide) (by decide)
      (Reachable.alloc _ _ (Reachable.init _))⟩

/-- C2, free-list shape invariant: with `P / G <= MAX_BLOCKS`, so that no call
writes outside the two arrays, in every state reachable from a successful
`init_alloc` by `alloc` and `dealloc` calls, the free list is strictly
ascending by offset, no two of its entries overlap, and no entry ends where the
next one starts, neither as natural numbers nor in the `size_t` arithmetic of
the merge test. -/
theorem C2_free_list_shape (P G m : Nat) (s : State) (hv : ValidConfig P G m)
    (hcap : P / G ≤ MAX_BLOCKS)
    (hr : Reachable P G m s) :
    s.free_blocks.Pairwise (fun a b => a.offset < b.offset) ∧
    s.free_blocks.Pairwise disjoint_ranges ∧
    (∀ i a b, s.free_blocks[i]? = some a → s.free_blocks[i + 1]? = some b →
      a.offset + a.size ≠ b.offset ∧ (a.offset + a.size) % WORD ≠ b.offset) := by
  have _hbounds := writes_in_bounds hv hcap hr
  have hinv := reachable_inv hv hr
  have hgap := hinv.2.2.2.2
  refine ⟨hgap.imp ?_, hgap.imp (fun h => disjoint_of_gap h), ?_⟩
  · intro a b h
    simp only [gap] at h
    omega
  · intro i a b hi hj
    have h : gap a b := pairwise_getElem? hgap (Nat.lt_succ_self i) hi hj
    have hend := hinv.free_end_le a (List.mem_iff_getElem?.2 ⟨i, hi⟩)
    have hP := hv.page_lt_word
    simp only [gap] at h
    rw [Nat.mod_eq_of_lt (by omega)]
    omega

/-- The shape invariant in the fragmented example state, whose free list has
three entries. -/
theorem C2_free_list_shape_witness :
    ValidConfig 4096 64 65536 ∧ 4096 / 64 ≤ MAX_BLOCKS ∧
    Reachable 4096 64 65536 example_frag ∧
    example_frag.free_blocks.Pairwise (fun a b => a.offset < b.offset) ∧
    example_frag.free_blocks.Pairwise disjoint_ranges ∧
    (∀ i a b, example_frag.free_blocks[i]? = some a →
      example_frag.free_blocks[i + 1]? = some b →
      a.offset + a.size ≠ b.offset ∧ (a.offset + a.size) % WORD ≠ b.offset) :=
  ⟨by decide, by decide,
    Reachable.dealloc _ _ (Reachable.dealloc _ _ (Reachable.alloc _ _ (Reachable.alloc _ _
      (Reachable.alloc _ _ (Reachable.alloc _ _ (Reachable.init _)))))),
    C2_free_list_shape 4096 64 65536 example_frag (by decide) (by decide)
      (Reachable.dealloc _ _ (Reachable.dealloc _ _ (Reachable.alloc _ _ (Reachable.alloc _ _
        (Reachable.alloc _ _ (Reachable.alloc _ _ (Reachable.init _)))))))⟩

/-- C3, first fit: with `P / G <= MAX_BLOCKS`, so that no call writes outside
the two arrays, in every reachable state, for every valid size for which some
free block is large enough, there is a smallest index `k` whose free entry `b`
has `b.size >= size`, `alloc` returns `pool + b.offset`, and `b` has the lowest
offset among all free blocks that fit, whatever their sizes are. -/
theorem C3_first_fit (P G m : Nat) (s : State) (size : Int) (hv : ValidConfig P G m)
    (hcap : P / G ≤ MAX_BLOCKS)
    (hr : Reachable P G m s) (h0 : 0 < size) (hG : size.tmod (G : Int) = 0)
    (hex : ∃ c ∈ s.free_blocks, size.toNat ≤ c.size) :
    ∃ (k : Nat) (b : block_info), s.free_blocks[k]? = some b ∧ size.toNat ≤ b.size ∧
      (∀ (j : Nat) (c : block_info), j < k → s.free_blocks[j]? = some c → c.size < size.toNat) ∧
      (alloc G size s).1 = s.pool + b.offset ∧
      (∀ c ∈ s.free_blocks, size.toNat ≤ c.size → b.offset ≤ c.offset) := by
  have _hbounds := writes_in_bounds hv hcap hr
  have hinv := reachable_inv hv hr
  obtain ⟨pre, b, post, hfree, hpre, hb⟩ :=
    exists_first_split (p := fun c => size.toNat ≤ c.size) s.free_blocks hex
  have hpre2 : ∀ c ∈ pre, c.size < size.toNat := fun c hc => by
    have := hpre c hc
    omega
  have hbmem : b ∈ s.free_blocks := by rw [hfree]; simp
  have hend := hinv.free_end_le b hbmem
  have hsz : 0 < size.toNat := by omega
  obtain ⟨_, _, _, hm, _, hmP⟩ := hv
  refine ⟨pre.length, b, ?_, hb, ?_, ?_, ?_⟩
  · rw [hfree]
    exact getElem?_split_mid pre b post
  · intro j c hj hjc
    rw [hfree] at hjc
    exact hpre2 c (mem_of_getElem?_split_left pre b post hj hjc)
  · rw [alloc_valid G size s h0 hG, hfree, alloc_scan_append _ pre b post hpre2 hb]
    show (s.pool + b.offset) % WORD = s.pool + b.offset
    rw [hinv.1]
    exact Nat.mod_eq_of_lt (by omega)
  · intro c hc hfit
    have hgap := hinv.2.2.2.2
    rw [hfree] at hc hgap
    simp only [List.pairwise_append, List.pairwise_cons] at hgap
    rcases List.mem_append.1 hc with h | h
    · have := hpre2 c h
      omega
    · rcases List.mem_cons.1 h with rfl | h
      · exact Nat.le_refl _
      · have := hgap.2.1.1 c h
        simp only [gap] at this
        omega

/-- First fit in the fragmented example state: `alloc(64)` takes the block at
offset 0 of size 128 although the later block `{192, 64}` fits exactly. -/
theorem C3_first_fit_witness :
    ValidConfig 4096 64 65536 ∧ 4096 / 64 ≤ MAX_BLOCKS ∧
    Reachable 4096 64 65536 example_frag ∧
    (0 : Int) < 64 ∧ (64 : Int).tmod ((64 : Nat) : Int) = 0 ∧
    (∃ c ∈ example_frag.free_blocks, (64 : Int).toNat ≤ c.size) ∧
    example_frag.free_blocks = [⟨0, 128⟩, ⟨192, 64⟩, ⟨320, 3776⟩] ∧
    ∃ (k : Nat) (b : block_info), example_frag.free_blocks[k]? = some b ∧ (64 : Int).toNat ≤ b.size ∧
      (∀ (j : Nat) (c : block_info), j < k → example_frag.free_blocks[j]? = some c → c.size < (64 : Int).toNat) ∧
      (alloc 64 64 example_frag).1 = example_frag.pool + b.offset ∧
      (∀ c ∈ example_frag.free_blocks, (64 : Int).toNat ≤ c.size → b.offset ≤ c.offset) :=
  ⟨by decide, by decide,
    Reachable.dealloc _ _ (Reachable.dealloc _ _ (Reachable.alloc _ _ (Reachable.alloc _ _
      (Reachable.alloc _ _ (Reachable.alloc _ _ (Reachable.init _)))))),
    by decide, by decide, ⟨⟨0, 128⟩, by decide, by decide⟩, by decide,
    C3_first_fit 4096 64 65536 example_frag 64 (by decide) (by decide)
      (Reachable.dealloc _ _ (Reachable.dealloc _ _ (Reachable.alloc _ _ (Reachable.alloc _ _
        (Reachable.alloc _ _ (Reachable.alloc _ _ (Reachable.init _)))))))
      (by decide) (by decide) ⟨⟨0, 128⟩, by decide, by decide⟩⟩

/-- C4, split postcondition: for every state whose allocated array has room
(`allocated_count < MAX_BLOCKS`, so that the write at index `allocated_count`
is inside the array) and every valid size, when the first free entry that fits,
at index `k`, is `{o, s}` with `s > size`, then after `alloc(size)` the free
list is the old one with entry `k` replaced by `{o + size, s - size}` (the sum
is the `size_t` sum of the code, and it is `o + size` itself whenever `o + s <=
2^64`), so the length and every other entry are unchanged, `s - size > 0`, and
the allocated list is the old one with `{o, size}` appended, still inside the
array. -/
theorem C4_split_postcondition (G : Nat) (size : Int) (s : State) (k o sk : Nat)
    (h0 : 0 < size) (hG : size.tmod (G : Int) = 0)
    (hk : s.free_blocks[k]? = some ⟨o, sk⟩)
    (hfirst : ∀ (j : Nat) (c : block_info), j < k → s.free_blocks[j]? = some c → c.size < size.toNat)
    (hbig : size.toNat < sk) (hcap : s.allocated_count < MAX_BLOCKS) :
    (alloc G size s).2.free_blocks
      = s.free_blocks.set k ⟨(o + size.toNat) % WORD, sk - size.toNat⟩ ∧
    (alloc G size s).2.free_count = s.free_count ∧
    (∀ j, j ≠ k → (alloc G size s).2.free_blocks[j]? = s.free_blocks[j]?) ∧
    0 < sk - size.toNat ∧
    (o + sk ≤ WORD → (o + size.toNat) % WORD = o + size.toNat) ∧
    (alloc G size s).2.allocated_blocks = s.allocated_blocks ++ [⟨o, size.toNat⟩] ∧
    (alloc G size s).2.allocated_count ≤ MAX_BLOCKS := by
  obtain ⟨pre, post, hfree, hlen, hpre⟩ := index_split hk
  have hpre2 : ∀ c ∈ pre, c.size < size.toNat := by
    intro c hc
    obtain ⟨j, hj, hjc⟩ := hpre c hc
    exact hfirst j c hj hjc
  have hne : ¬ sk = size.toNat := by omega
  have hscan := alloc_scan_append size.toNat pre ⟨o, sk⟩ post hpre2 (Nat.le_of_lt hbig)
  simp only [if_neg hne] at hscan
  have hfl : (alloc G size s).2.free_blocks
      = s.free_blocks.set k ⟨(o + size.toNat) % WORD, sk - size.toNat⟩ := by
    rw [alloc_valid G size s h0 hG]
    conv_lhs => rw [hfree, hscan]
    conv_rhs => rw [hfree, ← hlen, set_split_mid]
  have hal : (alloc G size s).2.allocated_blocks
      = s.allocated_blocks ++ [⟨o, size.toNat⟩] := by
    rw [alloc_valid G size s h0 hG]
    conv_lhs => rw [hfree, hscan]
  refine ⟨hfl, ?_, ?_, by omega, ?_, hal, ?_⟩
  · simp only [State.free_count, hfl, List.length_set]
  · intro j hj
    rw [hfl, List.getElem?_set_ne (Ne.symm hj)]
  · intro hle
    exact Nat.mod_eq_of_lt (by omega)
  · simp only [State.allocated_count, hal, List.length_append, List.length_singleton] at hcap ⊢
    omega

/-- The split postcondition for `alloc(64)` in the fragmented example state,
where the first free entry is `{0, 128}`. -/
theorem C4_split_postcondition_witness :
    (0 : Int) < 64 ∧ (64 : Int).tmod ((64 : Nat) : Int) = 0 ∧
    example_frag.free_blocks[0]? = some ⟨0, 128⟩ ∧
    (∀ (j : Nat) (c : block_info), j < 0 → example_frag.free_blocks[j]? = some c → c.size < (64 : Int).toNat) ∧
    (64 : Int).toNat < 128 ∧ example_frag.allocated_count < MAX_BLOCKS ∧
    (alloc 64 64 example_frag).2.free_blocks
      = example_frag.free_blocks.set 0 ⟨(0 + (64 : Int).toNat) % WORD, 128 - (64 : Int).toNat⟩ ∧
    (alloc 64 64 example_frag).2.free_count = example_frag.free_count ∧
    (∀ j, j ≠ 0 → (alloc 64 64 example_frag).2.free_blocks[j]? = example_frag.free_blocks[j]?) ∧
    0 < 128 - (64 : Int).toNat ∧
    (0 + 128 ≤ WORD → (0 + (64 : Int).toNat) % WORD = 0 + (64 : Int).toNat) ∧
    (alloc 64 64 example_frag).2.allocated_blocks
      = example_frag.allocated_blocks ++ [⟨0, (64 : Int).toNat⟩] ∧
    (alloc 64 64 example_frag).2.allocated_count ≤ MAX_BLOCKS :=
  ⟨by decide, by decide, by decide, fun j _ hj => absurd hj (Nat.not_lt_zero j), by decide,
    by decide,
    C4_split_postcondition 64 64 example_frag 0 0 128 (by decide) (by decide) (by decide)
      (fun j _ hj => absurd hj (Nat.not_lt_zero j)) (by decide) (by decide)⟩

/-- C5, exact-fit removal: for every state whose allocated array has room
(`allocated_count < MAX_BLOCKS`, so that the write at index `allocated_count`
is inside the array) and every valid size, when the first free entry that fits,
at index `k`, has exactly the requested size, `alloc(size)` removes that entry
from the free list (the count drops by one, the entries before `k` stay, the
entries after `k` move one place down in the same order) and appends one
allocated descriptor with the same offset and size, still inside the array. -/
theorem C5_exact_fit_removal (G : Nat) (size : Int) (s : State) (k o : Nat)
    (h0 : 0 < size) (hG : size.tmod (G : Int) = 0)
    (hk : s.free_blocks[k]? = some ⟨o, size.toNat⟩)
    (hfirst : ∀ (j : Nat) (c : block_info), j < k → s.free_blocks[j]? = some c → c.size < size.toNat)
    (hcap : s.allocated_count < MAX_BLOCKS) :
    (alloc G size s).2.free_blocks = s.free_blocks.eraseIdx k ∧
    (alloc G size s).2.free_count + 1 = s.free_count ∧
    (∀ j, j < k → (alloc G size s).2.free_blocks[j]? = s.free_blocks[j]?) ∧
    (∀ j, k ≤ j → (alloc G size s).2.free_blocks[j]? = s.free_blocks[j + 1]?) ∧
    (alloc G size s).2.allocated_blocks = s.allocated_blocks ++ [⟨o, size.toNat⟩] ∧
    (alloc G size s).2.allocated_count ≤ MAX_BLOCKS := by
  obtain ⟨pre, post, hfree, hlen, hpre⟩ := index_split hk
  have hpre2 : ∀ c ∈ pre, c.size < size.toNat := by
    intro c hc
    obtain ⟨j, hj, hjc⟩ := hpre c hc
    exact hfirst j c hj hjc
  have hscan := alloc_scan_append size.toNat pre ⟨o, size.toNat⟩ post hpre2 (Nat.le_refl _)
  simp only [if_true] at hscan
  have hfl : (alloc G size s).2.free_blocks = s.free_blocks.eraseIdx k := by
    rw [alloc_valid G size s h0 hG]
    conv_lhs => rw [hfree, hscan]
    conv_rhs => rw [hfree, ← hlen, eraseIdx_split_mid]
  have hklt : k < s.free_blocks.length := (List.getElem?_eq_some.1 hk).1
  have hal : (alloc G size s).2.allocated_blocks
      = s.allocated_blocks ++ [⟨o, size.toNat⟩] := by
    rw [alloc_valid G size s h0 hG]
    conv_lhs => rw [hfree, hscan]
  refine ⟨hfl, ?_, ?_, ?_, hal, ?_⟩
  · simp only [State.free_count, hfl, List.length_eraseIdx, hklt, if_true]
    omega
  · intro j hj
    rw [hfl, List.getElem?_eraseIdx, if_pos hj]
  · intro j hj
    rw [hfl, List.getElem?_eraseIdx, if_neg (by omega)]
  · simp only [State.allocated_count, hal, List.length_append, List.length_singleton] at hcap ⊢
    omega

/-- Exact-fit removal for `alloc(128)` in the fragmented example state, where
the first free entry is `{0, 128}`. -/
theorem C5_exact_fit_removal_witness :
    (0 : Int) < 128 ∧ (128 : Int).tmod ((64 : Nat) : Int) = 0 ∧
    example_frag.free_blocks[0]? = some ⟨0, (128 : Int).toNat⟩ ∧
    (∀ (j : Nat) (c : block_info), j < 0 → example_frag.free_blocks[j]? = some c → c.size < (128 : Int).toNat) ∧
    example_frag.allocated_count < MAX_BLOCKS ∧
    (alloc 64 128 example_frag).2.free_blocks = example_frag.free_blocks.eraseIdx 0 ∧
    (alloc 64 128 example_frag).2.free_count + 1 = example_frag.free_count ∧
    (∀ j, j < 0 → (alloc 64 128 example_frag).2.free_blocks[j]? = example_frag.free_blocks[j]?) ∧
    (∀ j, 0 ≤ j →
      (alloc 64 128 example_frag).2.free_blocks[j]? = example_frag.free_blocks[j + 1]?) ∧
    (alloc 64 128 example_frag).2.allocated_blocks
      = example_frag.allocated_blocks ++ [⟨0, (128 : Int).toNat⟩] ∧
    (alloc 64 128 example_frag).2.allocated_count ≤ MAX_BLOCKS :=
  ⟨by decide, by decide, by decide, fun j _ hj => absurd hj (Nat.not_lt_zero j), by decide,
    C5_exact_fit_removal 64 128 example_frag 0 0 (by decide) (by decide) (by decide)
      (fun j _ hj => absurd hj (Nat.not_lt_zero j)) (by decide)⟩

/-- C6, round trip: with `P / G <= MAX_BLOCKS`, so that no call writes outside
the two arrays, in every reachable state, when `alloc(size)` succeeds with
handle `h`, the call `dealloc(h)` right after it gives back the state before
the `alloc`: the same free list, entry by entry, and the same allocated list,
whether the block was split or removed. -/
theorem C6_round_trip (P G m : Nat) (s : State) (size : Int) (hv : ValidConfig P G m)
    (hcap : P / G ≤ MAX_BLOCKS)
    (hr : Reachable P G m s) (hok : (alloc G size s).1 ≠ 0) :
    (dealloc (alloc G size s).1 (alloc G size s).2).free_blocks = s.free_blocks ∧
    (dealloc (alloc G size s).1 (alloc G size s).2).allocated_blocks = s.allocated_blocks ∧
    dealloc (alloc G size s).1 (alloc G size s).2 = s := by
  have _hbounds := writes_in_bounds hv hcap hr
  have hinv := reachable_inv hv hr
  have hP := hv.page_lt_word
  obtain ⟨_, _, _, hm, _, hmP⟩ := hv
  have hval : ¬ (size ≤ 0 ∨ size.tmod (G : Int) ≠ 0) := by
    intro h
    rw [alloc_invalid G size s h] at hok
    exact hok rfl
  have h0 : 0 < size := by
    by_contra h; exact hval (Or.inl (by omega))
  have hG : size.tmod (G : Int) = 0 := by
    by_contra h; exact hval (Or.inr h)
  rw [alloc_valid G size s h0 hG] at hok ⊢
  cases hscan : alloc_scan size.toNat s.free_blocks with
  | none =>
    rw [hscan] at hok
    exact absurd rfl hok
  | some r =>
    obtain ⟨a, free2⟩ := r
    obtain ⟨pre, b, post, hfree, _, hb, ha, hfree2⟩ := alloc_scan_some hscan
    have hbmem : b ∈ s.free_blocks := by rw [hfree]; simp
    have hend := hinv.free_end_le b hbmem
    have hsz : 0 < size.toNat := by omega
    have hinv2 : Inv P m
        { s with
          free_blocks := free2,
          allocated_blocks := s.allocated_blocks ++ [a] } := by
      rw [ha, hfree2]
      exact inv_alloc_at hP hinv pre b post size.toNat hfree hsz hb
    have hptr : (s.pool + a.offset) % WORD = m + a.offset := by
      rw [hinv.1, ha]
      exact Nat.mod_eq_of_lt (by show m + b.offset < WORD; omega)
    have hne : ∀ c ∈ s.allocated_blocks, c.offset ≠ a.offset := by
      intro c hc
      rw [ha]
      exact @allocated_offset_ne_free P m s hinv b c hbmem hc
    have hde := dealloc_at hm hmP hinv2 s.allocated_blocks a [] rfl hne
    have hinv3 := (inv_dealloc_at hP hinv2 s.allocated_blocks a [] rfl).1
    have hfl := free_blocks_determined hinv3 hinv (fun x => by simp)
    show (dealloc ((s.pool + a.offset) % WORD) _).free_blocks = _ ∧
      (dealloc ((s.pool + a.offset) % WORD) _).allocated_blocks = _ ∧
      dealloc ((s.pool + a.offset) % WORD) _ = s
    rw [hptr, hde]
    simp only [List.append_nil] at hfl ⊢
    refine ⟨hfl, trivial, ?_⟩
    cases s
    simp only [State.mk.injEq, true_and, and_true] at hfl ⊢
    exact hfl

/-- The round trip for `alloc(64)` in the fragmented example state. -/
theorem C6_round_trip_witness :
    ValidConfig 4096 64 65536 ∧ 4096 / 64 ≤ MAX_BLOCKS ∧
    Reachable 4096 64 65536 example_frag ∧
    (alloc 64 64 example_frag).1 ≠ 0 ∧
    (dealloc (alloc 64 64 example_frag).1 (alloc 64 64 example_frag).2).free_blocks
      = example_frag.free_blocks ∧
    (dealloc (alloc 64 64 example_frag).1 (alloc 64 64 example_frag).2).allocated_blocks
      = example_frag.allocated_blocks ∧
    dealloc (alloc 64 64 example_frag).1 (alloc 64 64 example_frag).2 = example_frag :=
  ⟨by decide, by decide,
    Reachable.dealloc _ _ (Reachable.dealloc _ _ (Reachable.alloc _ _ (Reachable.alloc _ _
      (Reachable.alloc _ _ (Reachable.alloc _ _ (Reachable.init _)))))),
    by decide,
    C6_round_trip 4096 64 65536 example_frag 64 (by decide) (by decide)
      (Reachable.dealloc _ _ (Reachable.dealloc _ _ (Reachable.alloc _ _ (Reachable.alloc _ _
        (Reachable.alloc _ _ (Reachable.alloc _ _ (Reachable.init _)))))))
      (by decide)⟩

/-- C7, coalescing chain: with `P / G <= MAX_BLOCKS`, so that no call writes
outside the two arrays, in every reachable state that holds three allocated
blocks of the same size `sz` at offsets `o`, `o + sz` and `o + 2 sz`,
deallocating their three handles in any order gives the same free list as the
order first, second, third; in that free list one single entry contains the
whole range `[o, o + 3 sz)`; and when the state is the one after `init_alloc`
and three `alloc` calls of the same size, the final free list is the single
block `{0, P}`. -/
theorem C7_coalescing_chain (P G m : Nat) (s : State) (o sz : Nat)
    (order : List block_info) (hv : ValidConfig P G m)
    (hcap : P / G ≤ MAX_BLOCKS) (hr : Reachable P G m s)
    (h1 : (⟨o, sz⟩ : block_info) ∈ s.allocated_blocks)
    (h2 : (⟨o + sz, sz⟩ : block_info) ∈ s.allocated_blocks)
    (h3 : (⟨o + 2 * sz, sz⟩ : block_info) ∈ s.allocated_blocks)
    (hperm : order.Perm [⟨o, sz⟩, ⟨o + sz, sz⟩, ⟨o + 2 * sz, sz⟩]) :
    (dealloc_all (order.map (fun b => s.pool + b.offset)) s).free_blocks
      = (dealloc_all [s.pool + o, s.pool + (o + sz), s.pool + (o + 2 * sz)] s).free_blocks ∧
    (∃ b ∈ (dealloc_all (order.map (fun b => s.pool + b.offset)) s).free_blocks,
      b.offset ≤ o ∧ o + 3 * sz ≤ b.offset + b.size) ∧
    (∀ (s0 : State) (size : Int), 0 < size → size.tmod (G : Int) = 0 →
      s = (alloc G size (alloc G size (alloc G size (init_alloc P m s0).2).2).2).2 →
      o = 0 → sz = size.toNat →
      (dealloc_all (order.map (fun b => s.pool + b.offset)) s).free_blocks = [⟨0, P⟩]) := by
  have _hbounds := writes_in_bounds hv hcap hr
  have hinv := reachable_inv hv hr
  have hP := hv.page_lt_word
  have hv2 := hv
  obtain ⟨_, _, hPpos, hm, _, hmP⟩ := hv
  have hsz : 0 < sz := hinv.2.2.1 _ h1
  have hend3 := hinv.allocated_end_le _ h3
  simp only at hend3
  have hnd : ([⟨o, sz⟩, ⟨o + sz, sz⟩, ⟨o + 2 * sz, sz⟩] : List block_info).Nodup := by
    simp only [List.nodup_cons, List.mem_cons, List.mem_singleton, block_info.mk.injEq,
      List.not_mem_nil, List.nodup_nil, not_false_eq_true, and_true, not_or]
    omega
  have hmemL : ∀ b ∈ ([⟨o, sz⟩, ⟨o + sz, sz⟩, ⟨o + 2 * sz, sz⟩] : List block_info),
      b ∈ s.allocated_blocks := by
    intro b hb
    simp only [List.mem_cons, List.mem_singleton, List.not_mem_nil, or_false] at hb
    rcases hb with rfl | rfl | rfl
    · exact h1
    · exact h2
    · exact h3
  have hndO : order.Nodup := hperm.nodup_iff.2 hnd
  have hmemO : ∀ b ∈ order, b ∈ s.allocated_blocks := fun b hb => hmemL b (hperm.subset hb)
  obtain ⟨hinvO, hccO⟩ := dealloc_all_live hP hm hmP order s hinv hndO hmemO
  obtain ⟨hinvL, hccL⟩ := dealloc_all_live hP hm hmP _ s hinv hnd hmemL
  rw [hinv.1]
  have hfree : (dealloc_all (order.map (fun b => m + b.offset)) s).free_blocks
      = (dealloc_all [m + o, m + (o + sz), m + (o + 2 * sz)] s).free_blocks := by
    apply free_blocks_determined hinvO hinvL
    intro x
    have e1 := hccO x
    have e2 := hccL x
    have e3 := cover_count_perm x hperm
    omega
  refine ⟨hfree, ?_, ?_⟩
  · apply covered_run_in_one_block hinvO.2.2.2.2 o (3 * sz) (by omega)
    intro x hx1 hx2
    have e1 := hccO x
    have e2 := hinvO.2.2.2.1 x
    have e3 := hinv.2.2.2.1 x
    have e4 : 0 < cover_count x order := by
      rw [cover_count_perm x hperm]
      simp only [cover_count, covers]
      split_ifs <;> omega
    split_ifs at e2 e3 <;> omega
  · intro s0 size h0 hG hs ho hsize
    have hal := allocated_after_three_allocs hv2 s0 size h0 hG (by omega)
    rw [← hs, ← hsize] at hal
    have hzero : ∀ x, cover_count x
        (dealloc_all (order.map (fun b => m + b.offset)) s).allocated_blocks = 0 := by
      intro x
      have e1 := hccO x
      have e3 := cover_count_perm x hperm
      rw [hal] at e1
      subst ho
      simp only [Nat.zero_add] at e3
      omega
    apply free_list_unique hinvO.2.2.2.2 (List.pairwise_singleton _ _) hinvO.2.1
    · intro b hb
      simp only [List.mem_singleton] at hb
      subst hb
      exact hPpos
    · intro x
      have e2 := hinvO.2.2.2.1 x
      rw [hzero x] at e2
      simp only [cover_count, covers]
      split_ifs at e2 ⊢ <;> omega

/-- The coalescing chain after `init_alloc` and three calls `alloc(64)`, for
the order second, first, third; the orders second, first, third and first,
third, second both end in the free list `[{0, 4096}]`. -/
theorem C7_coalescing_chain_witness :
    ValidConfig 4096 64 65536 ∧ 4096 / 64 ≤ MAX_BLOCKS ∧
    Reachable 4096 64 65536 example_three ∧
    (⟨0, 64⟩ : block_info) ∈ example_three.allocated_blocks ∧
    (⟨0 + 64, 64⟩ : block_info) ∈ example_three.allocated_blocks ∧
    (⟨0 + 2 * 64, 64⟩ : block_info) ∈ example_three.allocated_blocks ∧
    ([⟨0 + 64, 64⟩, ⟨0, 64⟩, ⟨0 + 2 * 64, 64⟩] : List block_info).Perm
      [⟨0, 64⟩, ⟨0 + 64, 64⟩, ⟨0 + 2 * 64, 64⟩] ∧
    ((dealloc_all (([⟨0 + 64, 64⟩, ⟨0, 64⟩, ⟨0 + 2 * 64, 64⟩] : List block_info).map
        (fun b => example_three.pool + b.offset)) example_three).free_blocks
      = (dealloc_all [example_three.pool + 0, example_three.pool + (0 + 64),
          example_three.pool + (0 + 2 * 64)] example_three).free_blocks ∧
    (∃ b ∈ (dealloc_all (([⟨0 + 64, 64⟩, ⟨0, 64⟩, ⟨0 + 2 * 64, 64⟩] : List block_info).map
        (fun b => example_three.pool + b.offset)) example_three).free_blocks,
      b.offset ≤ 0 ∧ 0 + 3 * 64 ≤ b.offset + b.size) ∧
    (∀ (s0 : State) (size : Int), 0 < size → size.tmod ((64 : Nat) : Int) = 0 →
      example_three
        = (alloc 64 size (alloc 64 size (alloc 64 size (init_alloc 4096 65536 s0).2).2).2).2 →
      0 = 0 → 64 = size.toNat →
      (dealloc_all (([⟨0 + 64, 64⟩, ⟨0, 64⟩, ⟨0 + 2 * 64, 64⟩] : List block_info).map
        (fun b => example_three.pool + b.offset)) example_three).free_blocks
        = [⟨0, 4096⟩])) ∧
    (dealloc_all [65536 + 64, 65536, 65536 + 128] example_three).free_blocks = [⟨0, 4096⟩] ∧
    (dealloc_all [65536, 65536 + 128, 65536 + 64] example_three).free_blocks = [⟨0, 4096⟩] :=
  ⟨by decide, by decide,
    Reachable.alloc _ _ (Reachable.alloc _ _ (Reachable.alloc _ _ (Reachable.init _))),
    by decide, by decide, by decide, List.Perm.swap _ _ _,
    C7_coalescing_chain 4096 64 65536 example_three 0 64
      [⟨0 + 64, 64⟩, ⟨0, 64⟩, ⟨0 + 2 * 64, 64⟩] (by decide) (by decide)
      (Reachable.alloc _ _ (Reachable.alloc _ _ (Reachable.alloc _ _ (Reachable.init _))))
      (by decide) (by decide) (by decide) (List.Perm.swap _ _ _),
    by decide, by decide⟩

/-- C8, rejection of invalid sizes: for every state and every size that is not
positive or not a multiple of `G`, `alloc` returns `NULL` and the state after
the call is the state before it: both lists and both counts are unchanged. -/
theorem C8_reject_invalid_size (G : Nat) (size : Int) (s : State)
    (h : size ≤ 0 ∨ size.tmod (G : Int) ≠ 0) :
    (alloc G size s).1 = 0 ∧ (alloc G size s).2 = s ∧
    (alloc G size s).2.free_count = s.free_count ∧
    (alloc G size s).2.allocated_count = s.allocated_count := by
  rw [alloc_invalid G size s h]
  exact ⟨rfl, rfl, rfl, rfl⟩

/-- Rejection of the sizes 0, -4 and 65 with granularity 64. -/
theorem C8_reject_invalid_size_witness :
    (((0 : Int) ≤ 0 ∨ (0 : Int).tmod ((64 : Nat) : Int) ≠ 0) ∧
      (alloc 64 0 example_frag).1 = 0 ∧ (alloc 64 0 example_frag).2 = example_frag ∧
      (alloc 64 0 example_frag).2.free_count = example_frag.free_count ∧
      (alloc 64 0 example_frag).2.allocated_count = example_frag.allocated_count) ∧
    (((-4 : Int) ≤ 0 ∨ (-4 : Int).tmod ((64 : Nat) : Int) ≠ 0) ∧
      (alloc 64 (-4) example_frag).1 = 0 ∧ (alloc 64 (-4) example_frag).2 = example_frag ∧
      (alloc 64 (-4) example_frag).2.free_count = example_frag.free_count ∧
      (alloc 64 (-4) example_frag).2.allocated_count = example_frag.allocated_count) ∧
    (((65 : Int) ≤ 0 ∨ (65 : Int).tmod ((64 : Nat) : Int) ≠ 0) ∧
      (alloc 64 65 example_frag).1 = 0 ∧ (alloc 64 65 example_frag).2 = example_frag ∧
      (alloc 64 65 example_frag).2.free_count = example_frag.free_count ∧
      (alloc 64 65 example_frag).2.allocated_count = example_frag.allocated_count) :=
  ⟨⟨by decide, C8_reject_invalid_size 64 0 example_frag (by decide)⟩,
   ⟨by decide, C8_reject_invalid_size 64 (-4) example_frag (by decide)⟩,
   ⟨by decide, C8_reject_invalid_size 64 65 example_frag (by decide)⟩⟩

/-- C9, exhaustion: for every state whose pool pointer is not null, whose
free entries all satisfy `pool + offset < 2^64`, and whose allocated array has
room whenever a free block fits (`allocated_count < MAX_BLOCKS`, or no free
block has `size >= size`, in which case `alloc` writes nothing), and for every
valid size: `alloc` returns `NULL` exactly when no free block has
`size >= size`; in that case the state is unchanged; and a non-null result is
`pool + offset` for the offset of a free block that fits, recorded inside the
allocated array, so an allocation at offset 0 is not the failure value.  These
assumptions hold in every state reachable from a successful `init_alloc` when
`P / G <= MAX_BLOCKS`. -/
theorem C9_exhaustion (G : Nat) (size : Int) (s : State)
    (h0 : 0 < size) (hG : size.tmod (G : Int) = 0)
    (hpool : 0 < s.pool) (hmap : ∀ c ∈ s.free_blocks, s.pool + c.offset < WORD)
    (hcap : s.allocated_count < MAX_BLOCKS ∨ ∀ c ∈ s.free_blocks, c.size < size.toNat) :
    ((alloc G size s).1 = 0 ↔ ∀ c ∈ s.free_blocks, c.size < size.toNat) ∧
    ((∀ c ∈ s.free_blocks, c.size < size.toNat) → (alloc G size s).2 = s) ∧
    ((alloc G size s).1 ≠ 0 →
      (∃ c ∈ s.free_blocks, size.toNat ≤ c.size ∧ (alloc G size s).1 = s.pool + c.offset) ∧
      (alloc G size s).2.allocated_count ≤ MAX_BLOCKS) := by
  rw [alloc_valid G size s h0 hG]
  cases hscan : alloc_scan size.toNat s.free_blocks with
  | none =>
    have hall := (alloc_scan_none _ _).1 hscan
    exact ⟨⟨fun _ => hall, fun _ => rfl⟩, fun _ => rfl, fun h => absurd rfl h⟩
  | some r =>
    obtain ⟨a, free2⟩ := r
    obtain ⟨pre, b, post, hfree, _, hb, ha, _⟩ := alloc_scan_some hscan
    have hbmem : b ∈ s.free_blocks := by rw [hfree]; simp
    have hlt := hmap b hbmem
    have hptr : (s.pool + a.offset) % WORD = s.pool + b.offset := by
      rw [ha]
      exact Nat.mod_eq_of_lt hlt
    have hnot : ¬ ∀ c ∈ s.free_blocks, c.size < size.toNat := by
      intro hall
      have := hall b hbmem
      omega
    have hroom : s.allocated_count < MAX_BLOCKS := by
      rcases hcap with h | h
      · exact h
      · exact absurd h hnot
    refine ⟨⟨?_, fun hall => absurd hall hnot⟩, fun hall => absurd hall hnot, ?_⟩
    · intro hz
      change (s.pool + a.offset) % WORD = 0 at hz
      rw [hptr] at hz
      omega
    · intro _
      refine ⟨⟨b, hbmem, hb, hptr⟩, ?_⟩
      show (s.allocated_blocks ++ [a]).length ≤ MAX_BLOCKS
      simp only [State.allocated_count, List.length_append, List.length_singleton] at hroom ⊢
      omega

/-- The exhaustion property for `alloc(64)` in the state after `init_alloc`. -/
theorem C9_exhaustion_witness :
    (0 : Int) < 64 ∧ (64 : Int).tmod ((64 : Nat) : Int) = 0 ∧ 0 < example_init.pool ∧
    (∀ c ∈ example_init.free_blocks, example_init.pool + c.offset < WORD) ∧
    (example_init.allocated_count < MAX_BLOCKS ∨
      ∀ c ∈ example_init.free_blocks, c.size < (64 : Int).toNat) ∧
    ((alloc 64 64 example_init).1 = 0 ↔
      ∀ c ∈ example_init.free_blocks, c.size < (64 : Int).toNat) ∧
    ((∀ c ∈ example_init.free_blocks, c.size < (64 : Int).toNat) →
      (alloc 64 64 example_init).2 = example_init) ∧
    ((alloc 64 64 example_init).1 ≠ 0 →
      (∃ c ∈ example_init.free_blocks, (64 : Int).toNat ≤ c.size ∧
        (alloc 64 64 example_init).1 = example_init.pool + c.offset) ∧
      (alloc 64 64 example_init).2.allocated_count ≤ MAX_BLOCKS) :=
  ⟨by decide, by decide, by decide, by decide, by decide,
    C9_exhaustion 64 64 example_init (by decide) (by decide) (by decide) (by decide)
      (by decide)⟩

/-- C10, double free is a no-op: with `P / G <= MAX_BLOCKS`, so that no call
writes outside the two arrays, in every reachable state, for the handle `pool +
b.offset` of every allocated descriptor `b`, a second `dealloc` of the handle
right after the first leaves the state exactly as the first call left it, and
the first call removed one descriptor. -/
theorem C10_double_free_noop (P G m : Nat) (s : State) (b : block_info)
    (hv : ValidConfig P G m)
    (hcap : P / G ≤ MAX_BLOCKS) (hr : Reachable P G m s) (hb : b ∈ s.allocated_blocks) :
    dealloc (s.pool + b.offset) (dealloc (s.pool + b.offset) s)
      = dealloc (s.pool + b.offset) s ∧
    (dealloc (s.pool + b.offset) s).allocated_count + 1 = s.allocated_count := by
  have _hbounds := writes_in_bounds hv hcap hr
  have hinv := reachable_inv hv hr
  have hP := hv.page_lt_word
  obtain ⟨_, _, _, hm, _, hmP⟩ := hv
  rw [hinv.1]
  obtain ⟨hinv1, _, _, hno⟩ := dealloc_live_inv hP hm hmP hinv hb
  have hend := hinv.allocated_end_le b hb
  constructor
  · apply dealloc_no_match
    intro c hc
    have hoff : (m + b.offset + WORD - (dealloc (m + b.offset) s).pool) % WORD = b.offset := by
      rw [hinv1.1]
      have : m + b.offset + WORD - m = b.offset + WORD := by omega
      rw [this, Nat.add_mod_right]
      exact Nat.mod_eq_of_lt (by omega)
    rw [hoff]
    exact hno c hc
  · obtain ⟨pre, post, hal, _, hde⟩ := dealloc_live hm hmP hinv hb
    rw [hde]
    simp only [State.allocated_count, hal, List.length_append, List.length_cons]
    omega

/-- The double free of the block `{128, 64}` in the fragmented example state.
-/
theorem C10_double_free_noop_witness :
    ValidConfig 4096 64 65536 ∧ 4096 / 64 ≤ MAX_BLOCKS ∧
    Reachable 4096 64 65536 example_frag ∧
    (⟨128, 64⟩ : block_info) ∈ example_frag.allocated_blocks ∧
    dealloc (example_frag.pool + (⟨128, 64⟩ : block_info).offset)
        (dealloc (example_frag.pool + (⟨128, 64⟩ : block_info).offset) example_frag)
      = dealloc (example_frag.pool + (⟨128, 64⟩ : block_info).offset) example_frag ∧
    (dealloc (example_frag.pool + (⟨128, 64⟩ : block_info).offset) example_frag).allocated_count
      + 1 = example_frag.allocated_count :=
  ⟨by decide, by decide,
    Reachable.dealloc _ _ (Reachable.dealloc _ _ (Reachable.alloc _ _ (Reachable.alloc _ _
      (Reachable.alloc _ _ (Reachable.alloc _ _ (Reachable.init _)))))),
    by decide,
    C10_double_free_noop 4096 64 65536 example_frag ⟨128, 64⟩ (by decide) (by decide)
      (Reachable.dealloc _ _ (Reachable.dealloc _ _ (Reachable.alloc _ _ (Reachable.alloc _ _
        (Reachable.alloc _ _ (Reachable.alloc _ _ (Reachable.init _)))))))
      (by decide)⟩

/-- C11, unrecognised handle is a no-op: for every state, `dealloc(ptr)` leaves
the state, so both lists and both counts, unchanged whenever `ptr` is null, or
the pool pointer is null, or the `size_t` difference `ptr - pool` is the offset
of no allocated descriptor; for a pointer at or above the pool base that
difference is the plain difference. -/
theorem C11_unrecognised_handle_noop (ptr : Nat) (s : State)
    (h : ptr = 0 ∨ s.pool = 0 ∨
      ∀ c ∈ s.allocated_blocks, c.offset ≠ (ptr + WORD - s.pool) % WORD) :
    dealloc ptr s = s ∧
    (dealloc ptr s).free_count = s.free_count ∧
    (dealloc ptr s).allocated_count = s.allocated_count ∧
    (s.pool ≤ ptr → ptr < WORD → (ptr + WORD - s.pool) % WORD = ptr - s.pool) := by
  have hes : dealloc ptr s = s := by
    rcases h with h | h | h
    · unfold dealloc
      rw [if_pos (Or.inl h)]
    · unfold dealloc
      rw [if_pos (Or.inr h)]
    · exact dealloc_no_match ptr s h
  refine ⟨hes, by rw [hes], by rw [hes], ?_⟩
  intro h1 h2
  have : ptr + WORD - s.pool = ptr - s.pool + WORD := by omega
  rw [this, Nat.add_mod_right]
  exact Nat.mod_eq_of_lt (by omega)

/-- The no-op on a pointer into the interior of the live block `{128, 64}` of
the fragmented example state. -/
theorem C11_unrecognised_handle_noop_witness :
    ((65536 + 130 = 0) ∨ example_frag.pool = 0 ∨
      ∀ c ∈ example_frag.allocated_blocks,
        c.offset ≠ (65536 + 130 + WORD - example_frag.pool) % WORD) ∧
    dealloc (65536 + 130) example_frag = example_frag ∧
    (dealloc (65536 + 130) example_frag).free_count = example_frag.free_count ∧
    (dealloc (65536 + 130) example_frag).allocated_count = example_frag.allocated_count ∧
    (example_frag.pool ≤ 65536 + 130 → 65536 + 130 < WORD →
      (65536 + 130 + WORD - example_frag.pool) % WORD = 65536 + 130 - example_frag.pool) :=
  ⟨by decide, C11_unrecognised_handle_noop (65536 + 130) example_frag (by decide)⟩

/-- C12, deallocating a live handle: with `P / G <= MAX_BLOCKS`, so that no
call writes outside the two arrays, in every reachable state, for the handle
`pool + o` of an allocated descriptor `b = {o, s}`, `dealloc` removes exactly
`b` from the allocated list (the list is the old one with `b` erased, so the
count drops by one, the other descriptors keep their order and `b` is no longer
in it), and a byte lies in a free entry afterwards exactly when it did before
or lies in `[o, o + s)`. -/
theorem C12_dealloc_live_handle (P G m : Nat) (s : State) (b : block_info)
    (hv : ValidConfig P G m)
    (hcap : P / G ≤ MAX_BLOCKS) (hr : Reachable P G m s) (hb : b ∈ s.allocated_blocks) :
    (dealloc (s.pool + b.offset) s).allocated_blocks = s.allocated_blocks.erase b ∧
    (dealloc (s.pool + b.offset) s).allocated_count + 1 = s.allocated_count ∧
    (dealloc (s.pool + b.offset) s).allocated_blocks.Sublist s.allocated_blocks ∧
    b ∉ (dealloc (s.pool + b.offset) s).allocated_blocks ∧
    (∀ x, (∃ c ∈ (dealloc (s.pool + b.offset) s).free_blocks, covers c x) ↔
      ((∃ c ∈ s.free_blocks, covers c x) ∨ covers b x)) := by
  have _hbounds := writes_in_bounds hv hcap hr
  have hinv := reachable_inv hv hr
  have hP := hv.page_lt_word
  obtain ⟨_, _, _, hm, _, hmP⟩ := hv
  rw [hinv.1]
  obtain ⟨pre, post, hal, huniq, hde⟩ := dealloc_live hm hmP hinv hb
  have hcov := (inv_dealloc_at hP hinv pre b post hal).2
  have hnpre : b ∉ pre := fun h => huniq b (List.mem_append_left _ h) rfl
  have hnpost : b ∉ post := fun h => huniq b (List.mem_append_right _ h) rfl
  have herase : s.allocated_blocks.erase b = pre ++ post := by
    rw [hal, List.erase_append_right _ hnpre, List.erase_cons_head]
  rw [hde]
  refine ⟨herase.symm, ?_, ?_, ?_, ?_⟩
  · simp only [State.allocated_count, hal, List.length_append, List.length_cons]
    omega
  · show (pre ++ post).Sublist s.allocated_blocks
    rw [← herase]
    exact List.erase_sublist b _
  · show b ∉ pre ++ post
    intro h
    rcases List.mem_append.1 h with h | h
    · exact hnpre h
    · exact hnpost h
  · intro x
    show (∃ c ∈ insert_free_block b.offset b.size s.free_blocks, covers c x) ↔ _
    rw [exists_covers_iff, exists_covers_iff, hcov x]
    by_cases hbx : covers b x
    · simp [hbx]
    · simp [hbx]

/-- The deallocation of the live block `{128, 64}` of the fragmented example
state. -/
theorem C12_dealloc_live_handle_witness :
    ValidConfig 4096 64 65536 ∧ 4096 / 64 ≤ MAX_BLOCKS ∧
    Reachable 4096 64 65536 example_frag ∧
    (⟨128, 64⟩ : block_info) ∈ example_frag.allocated_blocks ∧
    (dealloc (example_frag.pool + (⟨128, 64⟩ : block_info).offset) example_frag).allocated_blocks
      = example_frag.allocated_blocks.erase ⟨128, 64⟩ ∧
    (dealloc (example_frag.pool + (⟨128, 64⟩ : block_info).offset) example_frag).allocated_count
      + 1 = example_frag.allocated_count ∧
    (dealloc (example_frag.pool + (⟨128, 64⟩ : block_info).offset)
      example_frag).allocated_blocks.Sublist example_frag.allocated_blocks ∧
    (⟨128, 64⟩ : block_info) ∉
      (dealloc (example_frag.pool + (⟨128, 64⟩ : block_info).offset) example_frag).allocated_blocks ∧
    (∀ x, (∃ c ∈ (dealloc (example_frag.pool + (⟨128, 64⟩ : block_info).offset)
        example_frag).free_blocks, covers c x) ↔
      ((∃ c ∈ example_frag.free_blocks, covers c x) ∨ covers (⟨128, 64⟩ : block_info) x)) :=
  ⟨by decide, by decide,
    Reachable.dealloc _ _ (Reachable.dealloc _ _ (Reachable.alloc _ _ (Reachable.alloc _ _
      (Reachable.alloc _ _ (Reachable.alloc _ _ (Reachable.init _)))))),
    by decide,
    C12_dealloc_live_handle 4096 64 65536 example_frag ⟨128, 64⟩ (by decide) (by decide)
      (Reachable.dealloc _ _ (Reachable.dealloc _ _ (Reachable.alloc _ _ (Reachable.alloc _ _
        (Reachable.alloc _ _ (Reachable.alloc _ _ (Reachable.init _)))))))
      (by decide)⟩

/-- C13, concrete scenario with a page of 4096 bytes and granularity 64, for
any pool base `m` that `mmap` can return: `init_alloc` gives free
`[{0, 4096}]` and an empty allocated list; `alloc(128)` returns `m + 0` with
free `[{128, 3968}]` and allocated `[{0, 128}]`; `alloc(64)` returns `m + 128`
with free `[{192, 3904}]`; `dealloc(m + 0)` gives free
`[{0, 128}, {192, 3904}]` and allocated `[{128, 64}]`; `dealloc(m + 128)` gives
free `[{0, 4096}]` and an empty allocated list, the state right after
`init_alloc`. -/
theorem C13_concrete_scenario (m : Nat) (s0 : State) (hv : ValidConfig 4096 64 m) :
    init_alloc 4096 m s0 = (0, ⟨m, [⟨0, 4096⟩], []⟩) ∧
    alloc 64 128 ⟨m, [⟨0, 4096⟩], []⟩ = (m + 0, ⟨m, [⟨128, 3968⟩], [⟨0, 128⟩]⟩) ∧
    alloc 64 64 ⟨m, [⟨128, 3968⟩], [⟨0, 128⟩]⟩
      = (m + 128, ⟨m, [⟨192, 3904⟩], [⟨0, 128⟩, ⟨128, 64⟩]⟩) ∧
    dealloc (m + 0) ⟨m, [⟨192, 3904⟩], [⟨0, 128⟩, ⟨128, 64⟩]⟩
      = ⟨m, [⟨0, 128⟩, ⟨192, 3904⟩], [⟨128, 64⟩]⟩ ∧
    dealloc (m + 128) ⟨m, [⟨0, 128⟩, ⟨192, 3904⟩], [⟨128, 64⟩]⟩ = ⟨m, [⟨0, 4096⟩], []⟩ ∧
    dealloc (m + 128) ⟨m, [⟨0, 128⟩, ⟨192, 3904⟩], [⟨128, 64⟩]⟩ = (init_alloc 4096 m s0).2 := by
  obtain ⟨_, _, _, hm, hmf, hmP⟩ := hv
  have hinit : init_alloc 4096 m s0 = (0, ⟨m, [⟨0, 4096⟩], []⟩) := by
    unfold init_alloc
    rw [if_neg hmf]
  have hd1 : (m + 0 + WORD - m) % WORD = 0 := by
    have : m + 0 + WORD - m = 0 + WORD := by omega
    rw [this, Nat.add_mod_right]
    rfl
  have hd2 : (m + 128 + WORD - m) % WORD = 128 := by
    have : m + 128 + WORD - m = 128 + WORD := by omega
    rw [this, Nat.add_mod_right]
    rfl
  have hdeall : dealloc (m + 128) ⟨m, [⟨0, 128⟩, ⟨192, 3904⟩], [⟨128, 64⟩]⟩
      = ⟨m, [⟨0, 4096⟩], []⟩ := by
    unfold dealloc
    rw [if_neg (by show ¬ (m + 128 = 0 ∨ m = 0); omega)]
    simp only [hd2]
    have h1 : remove_allocated 128 [(⟨128, 64⟩ : block_info)] = some (64, []) := by decide
    have h2 : insert_free_block 128 64 [⟨0, 128⟩, ⟨192, 3904⟩] = [⟨0, 4096⟩] := by decide
    simp only [h1, h2]
  refine ⟨hinit, ?_, ?_, ?_, hdeall, ?_⟩
  · rw [alloc_valid 64 128 _ (by decide) (by decide)]
    have h1 : alloc_scan (128 : Int).toNat [(⟨0, 4096⟩ : block_info)]
        = some (⟨0, 128⟩, [⟨128, 3968⟩]) := by decide
    simp only [h1, List.nil_append, Prod.mk.injEq, and_true]
    exact Nat.mod_eq_of_lt (by omega)
  · rw [alloc_valid 64 64 _ (by decide) (by decide)]
    have h1 : alloc_scan (64 : Int).toNat [(⟨128, 3968⟩ : block_info)]
        = some (⟨128, 64⟩, [⟨192, 3904⟩]) := by decide
    simp only [h1, List.singleton_append, Prod.mk.injEq, and_true]
    exact Nat.mod_eq_of_lt (by omega)
  · unfold dealloc
    rw [if_neg (by show ¬ (m + 0 = 0 ∨ m = 0); omega)]
    simp only [hd1]
    have h1 : remove_allocated 0 [(⟨0, 128⟩ : block_info), ⟨128, 64⟩]
        = some (128, [⟨128, 64⟩]) := by decide
    have h2 : insert_free_block 0 128 [⟨192, 3904⟩] = [⟨0, 128⟩, ⟨192, 3904⟩] := by decide
    simp only [h1, h2]
  · rw [hdeall, hinit]

/-- The concrete scenario with the page mapped at address 65536. -/
theorem C13_concrete_scenario_witness :
    ValidConfig 4096 64 65536 ∧
    init_alloc 4096 65536 ⟨0, [], []⟩ = (0, ⟨65536, [⟨0, 4096⟩], []⟩) ∧
    alloc 64 128 ⟨65536, [⟨0, 4096⟩], []⟩
      = (65536 + 0, ⟨65536, [⟨128, 3968⟩], [⟨0, 128⟩]⟩) ∧
    alloc 64 64 ⟨65536, [⟨128, 3968⟩], [⟨0, 128⟩]⟩
      = (65536 + 128, ⟨65536, [⟨192, 3904⟩], [⟨0, 128⟩, ⟨128, 64⟩]⟩) ∧
    dealloc (65536 + 0) ⟨65536, [⟨192, 3904⟩], [⟨0, 128⟩, ⟨128, 64⟩]⟩
      = ⟨65536, [⟨0, 128⟩, ⟨192, 3904⟩], [⟨128, 64⟩]⟩ ∧
    dealloc (65536 + 128) ⟨65536, [⟨0, 128⟩, ⟨192, 3904⟩], [⟨128, 64⟩]⟩
      = ⟨65536, [⟨0, 4096⟩], []⟩ ∧
    dealloc (65536 + 128) ⟨65536, [⟨0, 128⟩, ⟨192, 3904⟩], [⟨128, 64⟩]⟩
      = (init_alloc 4096 65536 ⟨0, [], []⟩).2 :=
  ⟨by decide, C13_concrete_scenario 65536 ⟨0, [], []⟩ (by decide)⟩

/-- C14, handle uniqueness: with `P / G <= MAX_BLOCKS`, so that no call writes
outside the two arrays, in every reachable state the allocated descriptors have
pairwise distinct offsets, and a successful `alloc` returns a pointer that is
not `pool + offset` for any descriptor already in the allocated list, and whose
offset from the pool is that of the one descriptor it appends. -/
theorem C14_handle_uniqueness (P G m : Nat) (s : State) (hv : ValidConfig P G m)
    (hcap : P / G ≤ MAX_BLOCKS)
    (hr : Reachable P G m s) :
    s.allocated_blocks.Pairwise (fun a b => a.offset ≠ b.offset) ∧
    (∀ size : Int, (alloc G size s).1 ≠ 0 →
      (∀ c ∈ s.allocated_blocks, (alloc G size s).1 ≠ s.pool + c.offset) ∧
      ∃ a, (alloc G size s).2.allocated_blocks = s.allocated_blocks ++ [a] ∧
        (alloc G size s).1 = s.pool + a.offset) := by
  have _hbounds := writes_in_bounds hv hcap hr
  have hinv := reachable_inv hv hr
  obtain ⟨_, _, _, hm, _, hmP⟩ := hv
  refine ⟨allocated_offsets_pairwise_ne hinv, ?_⟩
  intro size hok
  have hval : ¬ (size ≤ 0 ∨ size.tmod (G : Int) ≠ 0) := by
    intro h
    rw [alloc_invalid G size s h] at hok
    exact hok rfl
  have h0 : 0 < size := by
    by_contra h; exact hval (Or.inl (by omega))
  have hG : size.tmod (G : Int) = 0 := by
    by_contra h; exact hval (Or.inr h)
  rw [alloc_valid G size s h0 hG] at hok ⊢
  cases hscan : alloc_scan size.toNat s.free_blocks with
  | none =>
    rw [hscan] at hok
    exact absurd rfl hok
  | some r =>
    obtain ⟨a, free2⟩ := r
    obtain ⟨pre, b, post, hfree, _, hb, ha, _⟩ := alloc_scan_some hscan
    have hbmem : b ∈ s.free_blocks := by rw [hfree]; simp
    have hend := hinv.free_end_le b hbmem
    have hptr : (s.pool + a.offset) % WORD = s.pool + a.offset := by
      rw [hinv.1, ha]
      exact Nat.mod_eq_of_lt (by show m + b.offset < WORD; omega)
    refine ⟨?_, a, rfl, hptr⟩
    intro c hc
    show (s.pool + a.offset) % WORD ≠ s.pool + c.offset
    rw [hptr, ha]
    have := @allocated_offset_ne_free P m s hinv b c hbmem hc
    show s.pool + b.offset ≠ s.pool + c.offset
    omega

/-- Handle uniqueness in the fragmented example state. -/
theorem C14_handle_uniqueness_witness :
    ValidConfig 4096 64 65536 ∧ 4096 / 64 ≤ MAX_BLOCKS ∧
    Reachable 4096 64 65536 example_frag ∧
    example_frag.allocated_blocks.Pairwise (fun a b => a.offset ≠ b.offset) ∧
    (∀ size : Int, (alloc 64 size example_frag).1 ≠ 0 →
      (∀ c ∈ example_frag.allocated_blocks,
        (alloc 64 size example_frag).1 ≠ example_frag.pool + c.offset) ∧
      ∃ a, (alloc 64 size example_frag).2.allocated_blocks
          = example_frag.allocated_blocks ++ [a] ∧
        (alloc 64 size example_frag).1 = example_frag.pool + a.offset) :=
  ⟨by decide, by decide,
    Reachable.dealloc _ _ (Reachable.dealloc _ _ (Reachable.alloc _ _ (Reachable.alloc _ _
      (Reachable.alloc _ _ (Reachable.alloc _ _ (Reachable.init _)))))),
    C14_handle_uniqueness 4096 64 65536 example_frag (by decide) (by decide)
      (Reachable.dealloc _ _ (Reachable.dealloc _ _ (Reachable.alloc _ _ (Reachable.alloc _ _
        (Reachable.alloc _ _ (Reachable.alloc _ _ (Reachable.init _)))))))⟩

/-- C15, failed initialisation: when `mmap` returns `MAP_FAILED`, `init_alloc`
returns -1 and leaves both lists and both counts as they were, but the pool
pointer is `MAP_FAILED` afterwards, which is not null: from the initial globals
(null pool, both counts 0) the pool pointer becomes `2^64 - 1`, and a later
`dealloc` of a non-null pointer passes the test `pool == NULL`. -/
theorem C15_failed_init_pool_is_map_failed :
    (∀ (P : Nat) (s : State),
      (init_alloc P MAP_FAILED s).1 = -1 ∧
      (init_alloc P MAP_FAILED s).2.pool = MAP_FAILED ∧
      (init_alloc P MAP_FAILED s).2.free_blocks = s.free_blocks ∧
      (init_alloc P MAP_FAILED s).2.allocated_blocks = s.allocated_blocks ∧
      (init_alloc P MAP_FAILED s).2.free_count = s.free_count ∧
      (init_alloc P MAP_FAILED s).2.allocated_count = s.allocated_count) ∧
    MAP_FAILED ≠ 0 ∧
    init_alloc 4096 MAP_FAILED ⟨0, [], []⟩ = (-1, ⟨18446744073709551615, [], []⟩) ∧
    ¬ ((1 : Nat) = 0 ∨ (init_alloc 4096 MAP_FAILED ⟨0, [], []⟩).2.pool = 0) := by
  refine ⟨?_, by decide, by decide, by decide⟩
  intro P s
  unfold init_alloc
  rw [if_pos rfl]
  exact ⟨rfl, rfl, rfl, rfl, rfl, rfl⟩

/-- C16, teardown: for every state, when `munmap` returns 0, `cleanup` returns
0 and afterwards the pool pointer is null and both counts are 0; when `munmap`
returns anything else, `cleanup` returns -1 and the state, so the pool pointer,
both lists and both counts, is unchanged. -/
theorem C16_teardown (munmap_result : Int) (s : State) :
    (munmap_result = 0 →
      (cleanup munmap_result s).1 = 0 ∧ (cleanup munmap_result s).2.pool = 0 ∧
      (cleanup munmap_result s).2.free_count = 0 ∧
      (cleanup munmap_result s).2.allocated_count = 0) ∧
    (munmap_result ≠ 0 →
      (cleanup munmap_result s).1 = -1 ∧ (cleanup munmap_result s).2 = s ∧
      (cleanup munmap_result s).2.free_count = s.free_count ∧
      (cleanup munmap_result s).2.allocated_count = s.allocated_count) := by
  constructor
  · intro h
    unfold cleanup
    rw [if_neg (by simp [h])]
    exact ⟨rfl, rfl, rfl, rfl⟩
  · intro h
    unfold cleanup
    rw [if_pos h]
    exact ⟨rfl, rfl, rfl, rfl⟩

/-- C17, insert and coalesce: for every free list that is strictly ascending
by offset with pairwise non-overlapping entries and every non-empty block
`{o, s}` disjoint from all of them, where the list leaves room for one more
entry in the array (`free_count < MAX_BLOCKS`, so that the write at index
`free_count` is inside it) and all these ranges end below `2^64` (as the
ranges of descriptors inside the page do), `insert_free_block(o, s)` produces
a list that is ascending by offset, in which no entry ends at the offset of the
next one, that covers exactly the old bytes and `[o, o + s)`, and whose sizes
sum to the old sum plus `s`; the merge loop ends, after at most as many steps
as the list has entries, and the result has at most one entry more than the old
list and fits the array. -/
theorem C17_insert_coalesce (free : List block_info) (o sz : Nat)
    (_hsorted : free.Pairwise (fun a b => a.offset < b.offset))
    (_hdisj : free.Pairwise disjoint_ranges)
    (_hsz : 0 < sz) (_hnew : ∀ b ∈ free, disjoint_ranges b ⟨o, sz⟩)
    (hbound : ∀ b ∈ free, b.offset + b.size < WORD) (hnb : o + sz < WORD)
    (hcap : free.length < MAX_BLOCKS) :
    (insert_free_block o sz free).Pairwise (fun a b => a.offset ≤ b.offset) ∧
    (∀ (i : Nat) (a b : block_info), (insert_free_block o sz free)[i]? = some a →
      (insert_free_block o sz free)[i + 1]? = some b →
      a.offset + a.size ≠ b.offset ∧ (a.offset + a.size) % WORD ≠ b.offset) ∧
    (∀ x, (∃ c ∈ insert_free_block o sz free, covers c x) ↔
      ((∃ c ∈ free, covers c x) ∨ covers ⟨o, sz⟩ x)) ∧
    size_sum (insert_free_block o sz free) = size_sum free + sz ∧
    (insert_free_block o sz free).length ≤ free.length + 1 ∧
    (insert_free_block o sz free).length ≤ MAX_BLOCKS := by
  obtain ⟨h1, h2, h3, _, h5, h6, h7⟩ := insert_free_block_general 1 o sz free hbound hnb
  refine ⟨h6, ?_, ?_, h1, h7, by omega⟩
  · intro i a b hi hj
    have hne := chain'_getElem? h5 hi hj
    have ha := h3 a (List.mem_iff_getElem?.2 ⟨i, hi⟩)
    refine ⟨?_, hne⟩
    rw [Nat.mod_eq_of_lt ha] at hne
    exact hne
  · intro x
    rw [exists_covers_iff, exists_covers_iff, h2 x]
    by_cases hx : covers ⟨o, sz⟩ x
    · simp [hx]
    · simp [hx]

/-- The insertion of the block `{128, 64}` between the free entries `{0, 128}`
and `{192, 3904}`, which merges all three. -/
theorem C17_insert_coalesce_witness :
    ([⟨0, 128⟩, ⟨192, 3904⟩] : List block_info).Pairwise (fun a b => a.offset < b.offset) ∧
    ([⟨0, 128⟩, ⟨192, 3904⟩] : List block_info).Pairwise disjoint_ranges ∧
    0 < 64 ∧
    (∀ b ∈ ([⟨0, 128⟩, ⟨192, 3904⟩] : List block_info), disjoint_ranges b ⟨128, 64⟩) ∧
    (∀ b ∈ ([⟨0, 128⟩, ⟨192, 3904⟩] : List block_info), b.offset + b.size < WORD) ∧
    128 + 64 < WORD ∧
    ([⟨0, 128⟩, ⟨192, 3904⟩] : List block_info).length < MAX_BLOCKS ∧
    insert_free_block 128 64 [⟨0, 128⟩, ⟨192, 3904⟩] = [⟨0, 4096⟩] ∧
    (insert_free_block 128 64 [⟨0, 128⟩, ⟨192, 3904⟩]).Pairwise
      (fun a b => a.offset ≤ b.offset) ∧
    (∀ (i : Nat) (a b : block_info),
      (insert_free_block 128 64 [⟨0, 128⟩, ⟨192, 3904⟩])[i]? = some a →
      (insert_free_block 128 64 [⟨0, 128⟩, ⟨192, 3904⟩])[i + 1]? = some b →
      a.offset + a.size ≠ b.offset ∧ (a.offset + a.size) % WORD ≠ b.offset) ∧
    (∀ x, (∃ c ∈ insert_free_block 128 64 [⟨0, 128⟩, ⟨192, 3904⟩], covers c x) ↔
      ((∃ c ∈ ([⟨0, 128⟩, ⟨192, 3904⟩] : List block_info), covers c x) ∨
        covers ⟨128, 64⟩ x)) ∧
    size_sum (insert_free_block 128 64 [⟨0, 128⟩, ⟨192, 3904⟩])
      = size_sum [⟨0, 128⟩, ⟨192, 3904⟩] + 64 ∧
    (insert_free_block 128 64 [⟨0, 128⟩, ⟨192, 3904⟩]).length
      ≤ ([⟨0, 128⟩, ⟨192, 3904⟩] : List block_info).length + 1 ∧
    (insert_free_block 128 64 [⟨0, 128⟩, ⟨192, 3904⟩]).length ≤ MAX_BLOCKS :=
  have hd1 : ([⟨0, 128⟩, ⟨192, 3904⟩] : List block_info).Pairwise disjoint_ranges := by
    refine List.Pairwise.cons ?_ (List.pairwise_singleton _ _)
    intro b hb x hx
    simp only [List.mem_singleton] at hb
    subst hb
    simp only [covers] at hx
    omega
  have hd2 : ∀ b ∈ ([⟨0, 128⟩, ⟨192, 3904⟩] : List block_info),
      disjoint_ranges b ⟨128, 64⟩ := by
    intro b hb x hx
    simp only [List.mem_cons, List.mem_singleton, List.not_mem_nil, or_false] at hb
    rcases hb with rfl | rfl <;> simp only [covers] at hx <;> omega
  ⟨by decide, hd1, by decide, hd2, by decide, by decide, by decide, by decide,
    C17_insert_coalesce [⟨0, 128⟩, ⟨192, 3904⟩] 128 64 (by decide) hd1 (by decide) hd2
      (by decide) (by decide) (by decide)⟩

/-- C18, capacity is never exceeded: with a page of 4096 bytes, 512 array
entries and a granularity `G >= 8` that divides 4096, in every reachable state
`allocated_count <= 4096 / G <= MAX_BLOCKS` and
`free_count <= 4096 / (2 G) + 1`; so the index `allocated_count` at which a
call of `alloc` that changes the state writes, and the index `free_count` at
which `insert_free_block` writes, are strictly below `MAX_BLOCKS`. -/
theorem C18_capacity_not_exceeded (G m : Nat) (s : State) (hG : 8 ≤ G)
    (hv : ValidConfig 4096 G m) (hr : Reachable 4096 G m s) :
    s.allocated_count ≤ 4096 / G ∧ 4096 / G ≤ MAX_BLOCKS ∧
    s.free_count ≤ 4096 / (2 * G) + 1 ∧
    (∀ size : Int, (alloc G size s).2 ≠ s → s.allocated_count < MAX_BLOCKS) ∧
    s.free_count < MAX_BLOCKS := by
  obtain ⟨h1, h2⟩ := capacity_bounds hv hr
  have h3 : 4096 / G ≤ 4096 / 8 := Nat.div_le_div_left hG (by decide)
  have h4 : 4096 / (2 * G) ≤ 4096 / 16 :=
    Nat.div_le_div_left (show 16 ≤ 2 * G by omega) (by decide)
  have e1 : 4096 / 8 = 512 := by decide
  have e2 : 4096 / 16 = 256 := by decide
  have e3 : MAX_BLOCKS = 512 := rfl
  refine ⟨h1, by omega, h2, ?_, by omega⟩
  intro size hne
  have h5 := (capacity_bounds hv (Reachable.alloc s size hr)).1
  rcases alloc_unchanged_or_appended G size s with h | h
  · exact absurd h hne
  · simp only [State.allocated_count] at h5 ⊢
    omega

/-- The capacity bounds in the fragmented example state, with granularity
64. -/
theorem C18_capacity_not_exceeded_witness :
    8 ≤ 64 ∧ ValidConfig 4096 64 65536 ∧ Reachable 4096 64 65536 example_frag ∧
    example_frag.allocated_count ≤ 4096 / 64 ∧ 4096 / 64 ≤ MAX_BLOCKS ∧
    example_frag.free_count ≤ 4096 / (2 * 64) + 1 ∧
    (∀ size : Int, (alloc 64 size example_frag).2 ≠ example_frag →
      example_frag.allocated_count < MAX_BLOCKS) ∧
    example_frag.free_count < MAX_BLOCKS :=
  ⟨by decide, by decide,
    Reachable.dealloc _ _ (Reachable.dealloc _ _ (Reachable.alloc _ _ (Reachable.alloc _ _
      (Reachable.alloc _ _ (Reachable.alloc _ _ (Reachable.init _)))))),
    C18_capacity_not_exceeded 64 65536 example_frag (by decide) (by decide)
      (Reachable.dealloc _ _ (Reachable.dealloc _ _ (Reachable.alloc _ _ (Reachable.alloc _ _
        (Reachable.alloc _ _ (Reachable.alloc _ _ (Reachable.init _)))))))⟩

/-- C19, no residual fragmentation: with `P / G <= MAX_BLOCKS`, so that no call
writes outside the two arrays, and `P <= 2^31 - 1`, so that `P` is a value of
the `int` parameter of `alloc`, in every reachable state whose allocated list
is empty the free list is the single block `{0, P}`, and the call `alloc(P)`
that follows succeeds at offset 0: it returns the pool pointer, which is not
null, and records the block `{0, P}`. -/
theorem C19_no_residual_fragmentation (P G m : Nat) (s : State) (hv : ValidConfig P G m)
    (hcap : P / G ≤ MAX_BLOCKS) (hint : P ≤ 2 ^ 31 - 1)
    (hr : Reachable P G m s) (hempty : s.allocated_blocks = []) :
    s.free_blocks = [⟨0, P⟩] ∧
    (alloc G (P : Int) s).1 = s.pool ∧ (alloc G (P : Int) s).1 ≠ 0 ∧
    (alloc G (P : Int) s).2.allocated_blocks = [⟨0, P⟩] ∧
    (alloc G (P : Int) s).2.free_blocks = [] := by
  have _hfits : (P : Int) ≤ 2147483647 := by omega
  have _hbounds := writes_in_bounds hv hcap hr
  have hinv := reachable_inv hv hr
  obtain ⟨_, hGP, hPpos, hm, _, hmP⟩ := hv
  have hfree : s.free_blocks = [⟨0, P⟩] := by
    apply free_list_unique hinv.2.2.2.2 (List.pairwise_singleton _ _) hinv.2.1
    · intro b hb
      simp only [List.mem_singleton] at hb
      subst hb
      exact hPpos
    · intro x
      have e := hinv.2.2.2.1 x
      rw [hempty] at e
      simp only [cover_count, covers, Nat.add_zero] at e ⊢
      rw [e]
      split_ifs <;> omega
  have h0 : (0 : Int) < (P : Int) := by exact_mod_cast hPpos
  have hscan : alloc_scan P [(⟨0, P⟩ : block_info)] = some (⟨0, P⟩, []) := by
    simp [alloc_scan]
  rw [alloc_valid G (P : Int) s h0 (tmod_of_dvd hGP), Int.toNat_natCast, hfree, hscan, hempty]
  refine ⟨rfl, ?_, ?_, rfl, rfl⟩
  · show (s.pool + 0) % WORD = s.pool
    rw [hinv.1, Nat.add_zero]
    exact Nat.mod_eq_of_lt (by omega)
  · show (s.pool + 0) % WORD ≠ 0
    rw [hinv.1, Nat.add_zero, Nat.mod_eq_of_lt (by omega)]
    omega

/-- The state after `alloc(128)` and `dealloc` of its handle has the free list
`[{0, 4096}]`, and `alloc(4096)` succeeds in it. -/
theorem C19_no_residual_fragmentation_witness :
    ValidConfig 4096 64 65536 ∧ 4096 / 64 ≤ MAX_BLOCKS ∧ 4096 ≤ 2 ^ 31 - 1 ∧
    Reachable 4096 64 65536 example_back ∧
    example_back.allocated_blocks = [] ∧
    example_back.free_blocks = [⟨0, 4096⟩] ∧
    (alloc 64 ((4096 : Nat) : Int) example_back).1 = example_back.pool ∧
    (alloc 64 ((4096 : Nat) : Int) example_back).1 ≠ 0 ∧
    (alloc 64 ((4096 : Nat) : Int) example_back).2.allocated_blocks = [⟨0, 4096⟩] ∧
    (alloc 64 ((4096 : Nat) : Int) example_back).2.free_blocks = [] :=
  ⟨by decide, by decide, by decide,
    Reachable.dealloc _ _ (Reachable.alloc _ _ (Reachable.init _)), by decide,
    C19_no_residual_fragmentation 4096 64 65536 example_back (by decide) (by decide) (by decide)
      (Reachable.dealloc _ _ (Reachable.alloc _ _ (Reachable.init _))) (by decide)⟩

/-- C20, granularity alignment: with `P` a multiple of `G` and `P / G <=
MAX_BLOCKS`, so that no call writes outside the two arrays, in every reachable
state the offset and the size of every descriptor of the free list and of the
allocated list are multiples of `G`, and every successful `alloc` returns a
pointer at or above the pool base whose distance from it is a multiple of `G`.
-/
theorem C20_granularity_alignment (P G m : Nat) (s : State) (hv : ValidConfig P G m)
    (hcap : P / G ≤ MAX_BLOCKS)
    (hr : Reachable P G m s) :
    (∀ b ∈ s.free_blocks ++ s.allocated_blocks, G ∣ b.offset ∧ G ∣ b.size) ∧
    (∀ size : Int, (alloc G size s).1 ≠ 0 →
      s.pool ≤ (alloc G size s).1 ∧ G ∣ (alloc G size s).1 - s.pool) := by
  have _hbounds := writes_in_bounds hv hcap hr
  have hinv := reachable_inv hv hr
  obtain ⟨hfa, haa, _⟩ := reachable_aligned hv hr
  constructor
  · intro b hb
    rcases List.mem_append.1 hb with h | h
    · exact hfa b h
    · exact haa b h
  · intro size hok
    obtain ⟨_, _, b, hbmem, _, hptr, _⟩ := alloc_success hv.2.2.2.2.2 hinv G size hok
    rw [hptr]
    refine ⟨Nat.le_add_right _ _, ?_⟩
    rw [Nat.add_sub_cancel_left]
    exact (hfa b hbmem).1

/-- Alignment in the fragmented example state, with granularity 64. -/
theorem C20_granularity_alignment_witness :
    ValidConfig 4096 64 65536 ∧ 4096 / 64 ≤ MAX_BLOCKS ∧
    Reachable 4096 64 65536 example_frag ∧
    (∀ b ∈ example_frag.free_blocks ++ example_frag.allocated_blocks,
      64 ∣ b.offset ∧ 64 ∣ b.size) ∧
    (∀ size : Int, (alloc 64 size example_frag).1 ≠ 0 →
      example_frag.pool ≤ (alloc 64 size example_frag).1 ∧
      64 ∣ (alloc 64 size example_frag).1 - example_frag.pool) :=
  ⟨by decide, by decide,
    Reachable.dealloc _ _ (Reachable.dealloc _ _ (Reachable.alloc _ _ (Reachable.alloc _ _
      (Reachable.alloc _ _ (Reachable.alloc _ _ (Reachable.init _)))))),
    C20_granularity_alignment 4096 64 65536 example_frag (by decide) (by decide)
      (Reachable.dealloc _ _ (Reachable.dealloc _ _ (Reachable.alloc _ _ (Reachable.alloc _ _
        (Reachable.alloc _ _ (Reachable.alloc _ _ (Reachable.init _)))))))⟩

end Arena
